import Mathlib

/-!
Verification of the randomized binary search tree (RBST) implementation in
src/RbstNode.h and src/RbstSet.h.

The pointer structure of RbstNode is embedded shallowly:

* a tree is an inductive value; the constructor RTree.nil models the NULL
  pointer and RTree.node models a node, carrying the RbstValuedNode payload
  (an Int value under the default std::less ordering), the two child
  subtrees, the stored m_parent pointer (as the id of the parent node), the
  node's identity (modelling its address; fresh ids are drawn from a counter
  the way fresh nodes are allocated), and the stored m_size field;
* walking m_parent pointers, which the navigation and erase code of
  RbstNode.h does, is modelled by a zipper: a location in a tree is a pair
  of a path of Step frames (innermost first) and the subtree at that
  location, and plug rebuilds the whole tree;
* the RNG contract of src/RbstSet.h (a stateful functor yielding a uniform
  value below a given bound, one draw per call) is modelled by an abstract
  stream of raw draws together with a position, each call consuming one raw
  draw and reducing it modulo the bound, exactly the shape of
  LinearCongruentialGenerator::operator().
-/

namespace Rbst

/-- Shallow embedding of the RbstNode / RbstValuedNode pointer structure of
src/RbstNode.h.  nil is the NULL pointer; node carries the payload value,
left and right subtrees, the stored m_parent pointer (as an optional parent
node id), the node identity and the stored m_size field. -/
inductive RTree where
  | nil : RTree
  | node (val : Int) (left : RTree) (right : RTree)
      (par : Option Nat) (nid : Nat) (sz : Nat) : RTree
deriving Repr, DecidableEq

/-- Static RbstNode::size(node) of src/RbstNode.h line 25: the stored m_size
field, or 0 for NULL. -/
def osize : RTree → Nat
  | .nil => 0
  | .node _ _ _ _ _ s => s

/-- Left child of a node (NULL for NULL). -/
def lchild : RTree → RTree
  | .nil => .nil
  | .node _ l _ _ _ _ => l

/-- Right child of a node (NULL for NULL). -/
def rchild : RTree → RTree
  | .nil => .nil
  | .node _ _ r _ _ _ => r

/-- Value stored at the root node (0 for NULL, never used there). -/
def rootVal : RTree → Int
  | .nil => 0
  | .node v _ _ _ _ _ => v

/-- Identity of the root node (0 for NULL, never used there). -/
def rootId : RTree → Nat
  | .nil => 0
  | .node _ _ _ _ n _ => n

/-- Overwrite the m_parent field of the root node of a subtree. -/
def setPar (p : Option Nat) : RTree → RTree
  | .nil => .nil
  | .node v l r _ n s => .node v l r p n s

/-- In-order list of (id, value) pairs of a subtree; this is the element
sequence an iterator traversal of the subtree yields. -/
def elems : RTree → List (Nat × Int)
  | .nil => []
  | .node v l r _ n _ => elems l ++ (n, v) :: elems r

/-- In-order list of values of a subtree. -/
def vals (t : RTree) : List Int := (elems t).map Prod.snd

/-- In-order list of node ids of a subtree. -/
def ids (t : RTree) : List Nat := (elems t).map Prod.fst

/-- Actual number of nodes in a subtree. -/
def count (t : RTree) : Nat := (elems t).length

/-- In-order list of the nodes of a subtree, each node represented by the
subtree rooted at it.  This enumerates the nodes in rank order. -/
def nodes : RTree → List RTree
  | .nil => []
  | .node v l r p n s => nodes l ++ .node v l r p n s :: nodes r

/-- Invariant I1 of the spec: every node's stored m_size equals 1 plus the
stored sizes of its children (an absent child contributing 0). -/
def sizeOk : RTree → Prop
  | .nil => True
  | .node _ l r _ _ s => s = 1 + osize l + osize r ∧ sizeOk l ∧ sizeOk r

/-- Condition that a subtree placed as a child of the node with id i either
is NULL or has its m_parent field referring to that node. -/
def parChild (i : Nat) : RTree → Prop
  | .nil => True
  | .node _ _ _ p _ _ => p = some i

/-- Invariant I2 of the spec: every child's m_parent field refers to the
node holding it as a child. -/
def parOk : RTree → Prop
  | .nil => True
  | .node _ l r _ n _ => parChild n l ∧ parChild n r ∧ parOk l ∧ parOk r

/-- Invariant I3 of the spec under the std::less ordering on Int: every
value in the left subtree is at most the node's value and every value in
the right subtree is at least it, recursively. -/
def bstOk : RTree → Prop
  | .nil => True
  | .node v l r _ _ _ =>
    (∀ x ∈ vals l, x ≤ v) ∧ (∀ x ∈ vals r, v ≤ x) ∧ bstOk l ∧ bstOk r

/-- Condition that the root node's m_parent field (if the tree is not NULL)
equals p. -/
def rootParEq : RTree → Option Nat → Prop
  | .nil, _ => True
  | .node _ _ _ q _ _, p => q = p

/-- All three structural invariants together. -/
def Inv (t : RTree) : Prop := sizeOk t ∧ parOk t ∧ bstOk t

instance decSizeOk : (t : RTree) → Decidable (sizeOk t)
  | .nil => .isTrue trivial
  | .node _ l r _ _ s =>
    haveI : Decidable (sizeOk l) := decSizeOk l
    haveI : Decidable (sizeOk r) := decSizeOk r
    show Decidable (s = 1 + osize l + osize r ∧ sizeOk l ∧ sizeOk r) from
      inferInstance

instance decParChild (i : Nat) : (t : RTree) → Decidable (parChild i t)
  | .nil => .isTrue trivial
  | .node _ _ _ p _ _ => show Decidable (p = some i) from inferInstance

instance decParOk : (t : RTree) → Decidable (parOk t)
  | .nil => .isTrue trivial
  | .node _ l r _ n _ =>
    haveI : Decidable (parOk l) := decParOk l
    haveI : Decidable (parOk r) := decParOk r
    show Decidable (parChild n l ∧ parChild n r ∧ parOk l ∧ parOk r) from
      inferInstance

instance decBstOk : (t : RTree) → Decidable (bstOk t)
  | .nil => .isTrue trivial
  | .node v l r _ _ _ =>
    haveI : Decidable (bstOk l) := decBstOk l
    haveI : Decidable (bstOk r) := decBstOk r
    show Decidable
        ((∀ x ∈ vals l, x ≤ v) ∧ (∀ x ∈ vals r, v ≤ x) ∧ bstOk l ∧ bstOk r)
      from inferInstance

instance decRootParEq : (t : RTree) → (p : Option Nat) → Decidable (rootParEq t p)
  | .nil, _ => .isTrue trivial
  | .node _ _ _ q _ _, p => show Decidable (q = p) from inferInstance

instance decInv (t : RTree) : Decidable (Inv t) :=
  show Decidable (sizeOk t ∧ parOk t ∧ bstOk t) from inferInstance

/-- Model of the RNG contract of src/RbstSet.h: a stateful functor that,
called with bound n, yields a value in [0, n) and advances its state.  The
stream f abstracts the sequence of raw generator states; each call consumes
one raw draw and reduces it modulo the bound, the shape of
LinearCongruentialGenerator::operator()(size_t bound). -/
structure Rng where
  f : Nat → Nat
  pos : Nat

/-- One draw: a value in [0, bound) together with the advanced generator. -/
def Rng.next (r : Rng) (bound : Nat) : Nat × Rng :=
  (r.f r.pos % bound, ⟨r.f, r.pos + 1⟩)

/-- RbstNode::split (src/RbstNode.h lines 155-178) translated functionally.
The C++ call split(tree, lesser, greater, compare) threads the nodes of
tree into lesser.m_right and greater.m_left; here the pivot value p is the
value of the calling node (the node being inserted), lid and gid are the
ids of the current lesser and greater holders (used for the
tree.m_parent = &lesser / &greater writes), and the result is the pair
(piece assigned to lesser.m_right, piece assigned to greater.m_left).  The
stored size of every moved node is recomputed bottom-up exactly as the last
line of the C++ function does. -/
def split (p : Int) (lid gid : Nat) : RTree → RTree × RTree
  | .nil => (.nil, .nil)
  | .node v l r _ n _ =>
    if p < v then
      match l with
      | .nil => (.nil, .node v .nil r (some gid) n (1 + osize r))
      | lt@(.node _ _ _ _ _ _) =>
        let q := split p lid n lt
        (q.1, .node v q.2 r (some gid) n (1 + osize q.2 + osize r))
    else
      match r with
      | .nil => (.node v l .nil (some lid) n (1 + osize l), .nil)
      | rt@(.node _ _ _ _ _ _) =>
        let q := split p n gid rt
        (.node v l q.1 (some lid) n (1 + osize l + osize q.1), q.2)

/-- RbstNode::insert (src/RbstNode.h lines 180-212) translated functionally.
nv and newId are the value and identity of the node being inserted (the
C++ this), parent is the parent argument, and the subtree argument is the
node argument.  The short-circuit of the C++ condition is preserved: the
RNG is consulted only when the subtree is not NULL. -/
def insert (nv : Int) (newId : Nat) (parent : Option Nat) :
    RTree → Rng → RTree × Rng
  | .nil, rng => (.node nv .nil .nil parent newId 1, rng)
  | .node v l r tp tn ts, rng =>
    let d := Rng.next rng (1 + ts)
    if d.1 = 0 then
      let q := split nv newId newId (.node v l r tp tn ts)
      (.node nv q.1 q.2 parent newId (1 + osize q.1 + osize q.2), d.2)
    else if nv < v then
      let q := insert nv newId (some tn) l d.2
      (.node v q.1 r tp tn (ts + 1), q.2)
    else
      let q := insert nv newId (some tn) r d.2
      (.node v l q.1 tp tn (ts + 1), q.2)

/-- RbstNode::join (src/RbstNode.h lines 217-238) translated functionally.
The NULL checks, the draw with bound size(lesser) + size(greater), the size
updates and the m_parent writes on the recursively joined child follow the
C++ line by line. -/
def join : RTree → RTree → Rng → RTree × Rng
  | .nil, g, rng => (g, rng)
  | l, .nil, rng => (l, rng)
  | .node lv ll lr lp ln ls, .node gv gl gr gp gn gs, rng =>
    let d := Rng.next rng (ls + gs)
    if d.1 < ls then
      let q := join lr (.node gv gl gr gp gn gs) d.2
      (.node lv ll (setPar (some ln) q.1) lp ln (ls + gs), q.2)
    else
      let q := join (.node lv ll lr lp ln ls) gl d.2
      (.node gv (setPar (some gn) q.1) gr gp gn (ls + gs), q.2)
termination_by a b _ => sizeOf a + sizeOf b
decreasing_by
  all_goals simp_wf
  all_goals omega

/-- Zipper frame recording the parent node a location was reached from.
fromL means the location is the parent's left child (sib is the parent's
right subtree); fromR means it is the right child (sib is the left
subtree).  The frame carries the parent's payload, m_parent field, id and
stored size. -/
inductive Step where
  | fromL (v : Int) (sib : RTree) (par : Option Nat) (nid : Nat) (sz : Nat) : Step
  | fromR (v : Int) (sib : RTree) (par : Option Nat) (nid : Nat) (sz : Nat) : Step
deriving Repr, DecidableEq

/-- Rebuild the parent node of a frame around a subtree. -/
def plugStep : Step → RTree → RTree
  | .fromL v sib p n s, t => .node v t sib p n s
  | .fromR v sib p n s, t => .node v sib t p n s

/-- Rebuild the whole tree from a location (path is innermost frame first). -/
def plug : List Step → RTree → RTree
  | [], t => t
  | s :: rest, t => plug rest (plugStep s t)

/-- Frame with its stored parent size decremented, modelling the
--parent->m_size writes of RbstNode::erase. -/
def stepDec : Step → Step
  | .fromL v sib p n s => .fromL v sib p n (s - 1)
  | .fromR v sib p n s => .fromR v sib p n (s - 1)

/-- Rebuild the whole tree while decrementing the stored size of every
ancestor on the path, modelling the size-adjustment loop of
RbstNode::erase (src/RbstNode.h lines 263-268). -/
def decUp : List Step → RTree → RTree
  | [], t => t
  | s :: rest, t => decUp rest (plugStep (stepDec s) t)

/-- RbstNode::erase (src/RbstNode.h lines 240-275) translated on locations.
The children are joined, the join result is re-parented to the erased
node's former m_parent field value, the parent's child slot is replaced and
the stored sizes along the path to the root are decremented; the returned
tree is the new root of the whole tree (the join result itself when the
node had no parent). -/
def erase (path : List Step) (t : RTree) (rng : Rng) : RTree × Rng :=
  match t with
  | .nil => (.nil, rng)
  | .node _ l r tp _ _ =>
    let q := join l r rng
    match path with
    | [] => (setPar tp q.1, q.2)
    | s :: rest => (decUp rest (plugStep (stepDec s) (setPar tp q.1)), q.2)

/-- State of the erased node itself after RbstNode::erase: its m_parent,
m_left and m_right are NULL and its m_size is 1 (src/RbstNode.h lines
246-247), a unit subtree. -/
def eraseCleared : RTree → RTree
  | .nil => .nil
  | .node v _ _ _ n _ => .node v .nil .nil none n 1

/-- RbstNode::first (src/RbstNode.h line 35) on locations: descend to the
leftmost node of the subtree. -/
def firstD : List Step → RTree → List Step × RTree
  | path, .nil => (path, .nil)
  | path, .node v l r p n s =>
    match l with
    | .nil => (path, .node v .nil r p n s)
    | lt@(.node _ _ _ _ _ _) => firstD (.fromL v r p n s :: path) lt

/-- RbstNode::last (src/RbstNode.h line 36) on locations: descend to the
rightmost node of the subtree. -/
def lastD : List Step → RTree → List Step × RTree
  | path, .nil => (path, .nil)
  | path, .node v l r p n s =>
    match r with
    | .nil => (path, .node v l .nil p n s)
    | rt@(.node _ _ _ _ _ _) => lastD (.fromR v l p n s :: path) rt

/-- Parent-walk of RbstNode::next (src/RbstNode.h lines 99-102): ascend
while the current node is its parent's right child; the first parent
reached from a left child is the successor, NULL if there is none. -/
def upFromRight : List Step → RTree → Option (List Step × RTree)
  | [], _ => none
  | .fromL v sib p n s :: rest, t => some (rest, .node v t sib p n s)
  | .fromR v sib p n s :: rest, t => upFromRight rest (.node v sib t p n s)

/-- Parent-walk of RbstNode::previous (src/RbstNode.h lines 90-93). -/
def upFromLeft : List Step → RTree → Option (List Step × RTree)
  | [], _ => none
  | .fromR v sib p n s :: rest, t => some (rest, .node v sib t p n s)
  | .fromL v sib p n s :: rest, t => upFromLeft rest (.node v t sib p n s)

/-- RbstNode::next (src/RbstNode.h lines 96-103) on locations. -/
def nextN : List Step → RTree → Option (List Step × RTree)
  | _, .nil => none
  | path, .node v l r p n s =>
    match r with
    | rt@(.node _ _ _ _ _ _) => some (firstD (.fromR v l p n s :: path) rt)
    | .nil => upFromRight path (.node v l .nil p n s)

/-- RbstNode::previous (src/RbstNode.h lines 87-94) on locations. -/
def prevN : List Step → RTree → Option (List Step × RTree)
  | _, .nil => none
  | path, .node v l r p n s =>
    match l with
    | lt@(.node _ _ _ _ _ _) => some (lastD (.fromL v r p n s :: path) lt)
    | .nil => upFromLeft path (.node v .nil r p n s)

/-- RbstNode::offset (src/RbstNode.h lines 105-128) on locations, with a
fuel parameter making the mutual descent/ascent recursion evidently
terminating; offsetN instantiates the fuel with a bound that is never
exhausted on size-correct trees.  The three guarded cases and the two
parent-step adjustments follow the C++ line by line. -/
def offsetF : Nat → List Step → RTree → Int → Option (List Step × RTree)
  | 0, _, _, _ => none
  | _ + 1, _, .nil, _ => none
  | fuel + 1, path, .node v l r p n s, d =>
    if 0 < d ∧ d ≤ (osize r : Int) then
      offsetF fuel (.fromR v l p n s :: path) r (d - 1 - (osize (lchild r) : Int))
    else if d < 0 ∧ -d ≤ (osize l : Int) then
      offsetF fuel (.fromL v r p n s :: path) l (d + 1 + (osize (rchild l) : Int))
    else if d = 0 then
      some (path, .node v l r p n s)
    else
      match path with
      | [] => none
      | .fromL pv sib pp pn ps :: rest =>
        offsetF fuel rest (.node pv (.node v l r p n s) sib pp pn ps)
          (d - 1 - (osize r : Int))
      | .fromR pv sib pp pn ps :: rest =>
        offsetF fuel rest (.node pv sib (.node v l r p n s) pp pn ps)
          (d + 1 + (osize l : Int))

/-- RbstNode::offset with the canonical fuel (path length plus node count
of the whole tree plus one); on size-correct trees the recursion needs at
most this many steps, so the fuel never runs out. -/
def offsetN (path : List Step) (t : RTree) (d : Int) : Option (List Step × RTree) :=
  offsetF (path.length + count (plug path t) + 1) path t d

/-- Upward accumulation of RbstNode::index (src/RbstNode.h lines 130-139):
ascending from a right child adds the parent's stored size minus the
child's stored size. -/
def indexF : List Step → RTree → Nat → Nat
  | [], _, acc => acc
  | .fromL v sib p n s :: rest, t, acc => indexF rest (.node v t sib p n s) acc
  | .fromR v sib p n s :: rest, t, acc =>
    indexF rest (.node v sib t p n s) (acc + (s - osize t))

/-- RbstNode::index on locations: start from the left child's stored size
and walk to the root. -/
def indexN (path : List Step) (t : RTree) : Nat :=
  indexF path t (osize (lchild t))

/-- RbstNode::at (src/RbstNode.h lines 141-147).  The C++ function
dereferences m_left or m_right unconditionally in the corresponding branch;
the nil case here models that dereference of an absent child, so a none
result means the C++ code would have crashed. -/
def atN : RTree → Nat → Option RTree
  | .nil, _ => none
  | .node v l r p n s, i =>
    if i < osize l then atN l i
    else if i > osize l then atN r (i - osize l - 1)
    else some (.node v l r p n s)

/-- RbstNode::at on locations, recording the path taken by the descent. -/
def atLoc : List Step → RTree → Nat → Option (List Step × RTree)
  | _, .nil, _ => none
  | path, .node v l r p n s, i =>
    if i < osize l then atLoc (.fromL v r p n s :: path) l i
    else if i > osize l then atLoc (.fromR v l p n s :: path) r (i - osize l - 1)
    else some (path, .node v l r p n s)

/-- RbstValuedNode::find (src/RbstNode.h lines 322-337) with the
std::less ordering on Int; res models the fallback result (the set's end
sentinel at the adapter level, hence none here). -/
def find : RTree → Int → Option RTree → Option RTree
  | .nil, _, res => res
  | .node v l r p n s, k, res =>
    if k < v then find l k res
    else if v < k then find r k res
    else some (.node v l r p n s)

/-- RbstValuedNode::lower_bound (src/RbstNode.h lines 339-351): descend,
tracking the best candidate on each leftward step. -/
def lower_bound : RTree → Int → Option RTree → Option RTree
  | .nil, _, res => res
  | .node v l r p n s, k, res =>
    if v < k then lower_bound r k res
    else lower_bound l k (some (.node v l r p n s))

/-- RbstValuedNode::upper_bound (src/RbstNode.h lines 353-365). -/
def upper_bound : RTree → Int → Option RTree → Option RTree
  | .nil, _, res => res
  | .node v l r p n s, k, res =>
    if k < v then upper_bound l k (some (.node v l r p n s))
    else upper_bound r k res

/-- RbstValuedNode::find on locations, recording the descent path; used by
the adapter's erase(key), which erases at the position found. -/
def findLoc : List Step → RTree → Int → Option (List Step × RTree)
  | _, .nil, _ => none
  | path, .node v l r p n s, k =>
    if k < v then findLoc (.fromL v r p n s :: path) l k
    else if v < k then findLoc (.fromR v l p n s :: path) r k
    else some (path, .node v l r p n s)

/-- Elements strictly before a location's subtree in the in-order sequence
of the whole tree. -/
def elemsBef : List Step → List (Nat × Int)
  | [] => []
  | .fromL _ _ _ _ _ :: rest => elemsBef rest
  | .fromR v sib _ n _ :: rest => elemsBef rest ++ elems sib ++ [(n, v)]

/-- Elements strictly after a location's subtree in the in-order sequence
of the whole tree. -/
def elemsAft : List Step → List (Nat × Int)
  | [] => []
  | .fromL v sib _ n _ :: rest => (n, v) :: elems sib ++ elemsAft rest
  | .fromR _ _ _ _ _ :: rest => elemsAft rest

/-- Rank of a location's node in the whole tree: the number of elements
before its subtree plus the actual size of its left subtree. -/
def rankN (path : List Step) (t : RTree) : Nat :=
  (elemsBef path).length + count (lchild t)

/-- A node-level mutation: inserting a fresh node with a given value, or
erasing the node at a given rank (a no-op when the rank is out of range).
Rank-indexed erasure reaches every node of the tree, so sequences of these
operations model arbitrary insert and erase sequences. -/
inductive Op where
  | ins (v : Int) : Op
  | del (i : Nat) : Op

/-- Node-level tree state: the data root, the RNG state, and the id counter
modelling the allocator producing fresh node addresses. -/
structure St where
  root : RTree
  rng : Rng
  counter : Nat

/-- Apply one node-level operation: ins inserts a fresh node at the root
subtree (parent NULL, as a raw RbstNode::insert call on the root), del
locates the node at the given rank with at() and erases it. -/
def applyOp (st : St) : Op → St
  | .ins v =>
    let q := insert v st.counter none st.root st.rng
    ⟨q.1, q.2, st.counter + 1⟩
  | .del i =>
    match atLoc [] st.root i with
    | none => st
    | some (path, u) =>
      let q := erase path u st.rng
      ⟨q.1, q.2, st.counter⟩

/-- Run a sequence of node-level operations from the empty tree, with raw
RNG stream f. -/
def runOps (f : Nat → Nat) (ops : List Op) : St :=
  ops.foldl applyOp ⟨.nil, ⟨f, 0⟩, 1⟩

/-- Id of the RbstTree sentinel object, which RbstTree::insert passes as
the parent of the root node. -/
def sentId : Nat := 0

/-- State of an RbstSet: the data root (m_tree.m_left), the RNG, the id
counter modelling the node allocator, and the sentinel's stored m_size
(which RbstTree::insert increments and the erase walk decrements; the
adapter reports size() = sentSz - 1). -/
structure SetSt where
  root : RTree
  rng : Rng
  counter : Nat
  sentSz : Nat

/-- RbstSet::insert(value) (src/RbstSet.h lines 196-209): look the value up
first; if found return the existing node's position with inserted = false
and no mutation, otherwise allocate a fresh node and insert it through
RbstTree::insert (which pre-increments the sentinel size and passes the
sentinel as parent).  A position is modelled by the id of the iterator's
node. -/
def setInsert (st : SetSt) (v : Int) : (Nat × Bool) × SetSt :=
  match find st.root v none with
  | some u => ((rootId u, false), st)
  | none =>
    let q := insert v st.counter (some sentId) st.root st.rng
    ((st.counter, true), ⟨q.1, q.2, st.counter + 1, st.sentSz + 1⟩)

/-- RbstSet::erase(key) (src/RbstSet.h lines 246-252): find the key; if
absent return 0 and leave the container unchanged, otherwise erase the
found position and return 1. -/
def setEraseKey (st : SetSt) (k : Int) : Nat × SetSt :=
  match findLoc [] st.root k with
  | none => (0, st)
  | some (path, u) =>
    let q := erase path u st.rng
    (1, ⟨q.1, q.2, st.counter, st.sentSz - 1⟩)

/-- RbstSet::find(key) (src/RbstSet.h line 272, via RbstTree::find); none
models the end() sentinel result. -/
def setFind (st : SetSt) (k : Int) : Option RTree :=
  find st.root k none

/-- Intended semantics of RbstSet::count (src/RbstSet.h lines 265-269).
The body of count passes its arguments to RbstValuedNode::find in the
wrong order (node_type::find(key, m_tree.root(), NULL), against the
signature find(node, value, comp, res)) and omits the comparator, so the
call cannot compile when instantiated; this definition applies find as its
signature and the function's documentation require. -/
def setCount (st : SetSt) (k : Int) : Nat :=
  if (find st.root k none).isSome then 1 else 0

/-- Id of the parent node recorded in a zipper frame. -/
def stepId : Step → Nat
  | .fromL _ _ _ n _ => n
  | .fromR _ _ _ n _ => n

/-- First-of-two options, the shape in which the accumulated res fallback
of lower_bound and upper_bound combines with the leftmost matching node. -/
def orR (a b : Option RTree) : Option RTree :=
  match a with
  | some x => some x
  | none => b

/-- RbstSetIterator::operator- (src/RbstSet.h lines 73-74): the difference
of two positions is the difference of their index() values. -/
def iterDiff (a b : List Step × RTree) : Int :=
  (indexN a.1 a.2 : Int) - (indexN b.1 b.2 : Int)

/-! Basic structural lemmas. -/

theorem count_nil : count .nil = 0 := rfl

theorem count_node (v : Int) (l r : RTree) (p : Option Nat) (n s : Nat) :
    count (.node v l r p n s) = count l + 1 + count r := by
  simp [count, elems]; omega

theorem count_pos_of_ne_nil {t : RTree} (h : t ≠ RTree.nil) : 0 < count t := by
  cases t with
  | nil => exact absurd rfl h
  | node v l r p n s => rw [count_node]; omega

theorem osize_eq_count {t : RTree} (h : sizeOk t) : osize t = count t := by
  induction t with
  | nil => rfl
  | node v l r p n s ihl ihr =>
    obtain ⟨hs, hl, hr⟩ := h
    show s = count (.node v l r p n s)
    rw [count_node, hs, ihl hl, ihr hr]
    omega

theorem elems_setPar (p : Option Nat) (t : RTree) : elems (setPar p t) = elems t := by
  cases t <;> simp [setPar, elems]

theorem count_setPar (p : Option Nat) (t : RTree) : count (setPar p t) = count t := by
  simp [count, elems_setPar]

theorem vals_setPar (p : Option Nat) (t : RTree) : vals (setPar p t) = vals t := by
  simp [vals, elems_setPar]

theorem sizeOk_setPar {p : Option Nat} {t : RTree} (h : sizeOk t) :
    sizeOk (setPar p t) := by
  cases t with
  | nil => exact h
  | node v l r q n s => exact h

theorem parOk_setPar {p : Option Nat} {t : RTree} (h : parOk t) :
    parOk (setPar p t) := by
  cases t with
  | nil => exact h
  | node v l r q n s => exact h

theorem bstOk_setPar {p : Option Nat} {t : RTree} (h : bstOk t) :
    bstOk (setPar p t) := by
  cases t with
  | nil => exact h
  | node v l r q n s => exact h

theorem rootParEq_setPar (p : Option Nat) (t : RTree) :
    rootParEq (setPar p t) p := by
  cases t <;> simp [setPar, rootParEq]

theorem osize_setPar (p : Option Nat) (t : RTree) : osize (setPar p t) = osize t := by
  cases t <;> simp [setPar, osize]

theorem vals_node (v : Int) (l r : RTree) (p : Option Nat) (n s : Nat) :
    vals (.node v l r p n s) = vals l ++ v :: vals r := by
  simp [vals, elems]

/-! Decomposition of the whole tree's element sequence at a location. -/

theorem elems_plugStep (s : Step) (t : RTree) :
    elems (plugStep s t) =
      match s with
      | .fromL v sib _ n _ => elems t ++ (n, v) :: elems sib
      | .fromR v sib _ n _ => elems sib ++ (n, v) :: elems t := by
  cases s <;> simp [plugStep, elems]

theorem elems_plug (path : List Step) (t : RTree) :
    elems (plug path t) = elemsBef path ++ elems t ++ elemsAft path := by
  induction path generalizing t with
  | nil => simp [plug, elemsBef, elemsAft]
  | cons s rest ih =>
    cases s with
    | fromL v sib p n sz =>
      simp [plug, plugStep, ih, elems, elemsBef, elemsAft]
    | fromR v sib p n sz =>
      simp [plug, plugStep, ih, elems, elemsBef, elemsAft]

theorem elemsBef_append (a b : List Step) :
    elemsBef (a ++ b) = elemsBef b ++ elemsBef a := by
  induction a with
  | nil => simp [elemsBef]
  | cons s rest ih =>
    cases s <;> simp [elemsBef, ih]

theorem elemsAft_append (a b : List Step) :
    elemsAft (a ++ b) = elemsAft a ++ elemsAft b := by
  induction a with
  | nil => simp [elemsAft]
  | cons s rest ih =>
    cases s <;> simp [elemsAft, ih]

theorem plug_append (a b : List Step) (t : RTree) :
    plug (a ++ b) t = plug b (plug a t) := by
  induction a generalizing t with
  | nil => simp [plug]
  | cons s rest ih => simp [plug, ih]

/-! Invariant extraction from a plugged tree down to its location. -/

theorem sizeOk_plugStep {s : Step} {t : RTree} (h : sizeOk (plugStep s t)) :
    sizeOk t := by
  cases s with
  | fromL v sib p n sz => exact h.2.1
  | fromR v sib p n sz => exact h.2.2

theorem parOk_plugStep {s : Step} {t : RTree} (h : parOk (plugStep s t)) :
    parOk t := by
  cases s with
  | fromL v sib p n sz => exact h.2.2.1
  | fromR v sib p n sz => exact h.2.2.2

theorem bstOk_plugStep {s : Step} {t : RTree} (h : bstOk (plugStep s t)) :
    bstOk t := by
  cases s with
  | fromL v sib p n sz => exact h.2.2.1
  | fromR v sib p n sz => exact h.2.2.2

theorem sizeOk_of_plug {path : List Step} {t : RTree}
    (h : sizeOk (plug path t)) : sizeOk t := by
  induction path generalizing t with
  | nil => exact h
  | cons s rest ih => exact sizeOk_plugStep (ih h)

theorem parOk_of_plug {path : List Step} {t : RTree}
    (h : parOk (plug path t)) : parOk t := by
  induction path generalizing t with
  | nil => exact h
  | cons s rest ih => exact parOk_plugStep (ih h)

theorem bstOk_of_plug {path : List Step} {t : RTree}
    (h : bstOk (plug path t)) : bstOk t := by
  induction path generalizing t with
  | nil => exact h
  | cons s rest ih => exact bstOk_plugStep (ih h)

/-! Named equation lemmas for the recursive definitions whose generated
equations do not unfold under simp directly. -/

theorem split_nil (p : Int) (lid gid : Nat) : split p lid gid .nil = (.nil, .nil) := by
  rw [split]

theorem split_node_lt_nil {p v : Int} (hp : p < v) (r : RTree) (tp : Option Nat)
    (lid gid tn ts : Nat) :
    split p lid gid (.node v .nil r tp tn ts) =
      (.nil, .node v .nil r (some gid) tn (1 + osize r)) := by
  rw [split.eq_def]; simp [hp]

theorem split_node_lt {p v : Int} (hp : p < v) (lv : Int) (ll lr r : RTree)
    (lp tp : Option Nat) (lid gid lnn lss tn ts : Nat) :
    split p lid gid (.node v (.node lv ll lr lp lnn lss) r tp tn ts) =
      ((split p lid tn (.node lv ll lr lp lnn lss)).1,
       .node v (split p lid tn (.node lv ll lr lp lnn lss)).2 r (some gid) tn
         (1 + osize (split p lid tn (.node lv ll lr lp lnn lss)).2 + osize r)) := by
  rw [split.eq_def]; simp [hp]

theorem split_node_ge_nil {p v : Int} (hp : ¬ p < v) (l : RTree) (tp : Option Nat)
    (lid gid tn ts : Nat) :
    split p lid gid (.node v l .nil tp tn ts) =
      (.node v l .nil (some lid) tn (1 + osize l), .nil) := by
  rw [split.eq_def]; simp [hp]

theorem split_node_ge {p v : Int} (hp : ¬ p < v) (rv : Int) (l rl rr : RTree)
    (rp tp : Option Nat) (lid gid rnn rss tn ts : Nat) :
    split p lid gid (.node v l (.node rv rl rr rp rnn rss) tp tn ts) =
      (.node v l (split p tn gid (.node rv rl rr rp rnn rss)).1 (some lid) tn
         (1 + osize l + osize (split p tn gid (.node rv rl rr rp rnn rss)).1),
       (split p tn gid (.node rv rl rr rp rnn rss)).2) := by
  rw [split.eq_def]; simp [hp]

theorem insert_nil (nv : Int) (newId : Nat) (parent : Option Nat) (rng : Rng) :
    insert nv newId parent .nil rng = (.node nv .nil .nil parent newId 1, rng) := by
  rw [insert]

theorem insert_node_hit {nv v : Int} {l r : RTree} {tp : Option Nat}
    {tn ts : Nat} {rng : Rng} (newId : Nat) (parent : Option Nat)
    (h : (Rng.next rng (1 + ts)).1 = 0) :
    insert nv newId parent (.node v l r tp tn ts) rng =
      (.node nv (split nv newId newId (.node v l r tp tn ts)).1
         (split nv newId newId (.node v l r tp tn ts)).2 parent newId
         (1 + osize (split nv newId newId (.node v l r tp tn ts)).1 +
            osize (split nv newId newId (.node v l r tp tn ts)).2),
       (Rng.next rng (1 + ts)).2) := by
  rw [insert.eq_def]; simp [h]

theorem insert_node_left {nv v : Int} {l r : RTree} {tp : Option Nat}
    {tn ts : Nat} {rng : Rng} (newId : Nat) (parent : Option Nat)
    (h : (Rng.next rng (1 + ts)).1 ≠ 0) (hv : nv < v) :
    insert nv newId parent (.node v l r tp tn ts) rng =
      (.node v (insert nv newId (some tn) l (Rng.next rng (1 + ts)).2).1 r tp tn
         (ts + 1),
       (insert nv newId (some tn) l (Rng.next rng (1 + ts)).2).2) := by
  rw [insert.eq_def]; simp [h, hv]

theorem insert_node_right {nv v : Int} {l r : RTree} {tp : Option Nat}
    {tn ts : Nat} {rng : Rng} (newId : Nat) (parent : Option Nat)
    (h : (Rng.next rng (1 + ts)).1 ≠ 0) (hv : ¬ nv < v) :
    insert nv newId parent (.node v l r tp tn ts) rng =
      (.node v l (insert nv newId (some tn) r (Rng.next rng (1 + ts)).2).1 tp tn
         (ts + 1),
       (insert nv newId (some tn) r (Rng.next rng (1 + ts)).2).2) := by
  rw [insert.eq_def]; simp [h, hv]

theorem join_nil (g : RTree) (rng : Rng) : join .nil g rng = (g, rng) := by
  rw [join]

theorem join_nil_r (l : RTree) (rng : Rng) : join l .nil rng = (l, rng) := by
  cases l with
  | nil => rw [join]
  | node lv ll lr lp ln ls => rw [join] ; simp

theorem join_node_lt {lv gv : Int} {ll lr gl gr : RTree} {lp gp : Option Nat}
    {ln ls gn gs : Nat} {rng : Rng}
    (h : (Rng.next rng (ls + gs)).1 < ls) :
    join (.node lv ll lr lp ln ls) (.node gv gl gr gp gn gs) rng =
      (.node lv ll
         (setPar (some ln)
           (join lr (.node gv gl gr gp gn gs) (Rng.next rng (ls + gs)).2).1)
         lp ln (ls + gs),
       (join lr (.node gv gl gr gp gn gs) (Rng.next rng (ls + gs)).2).2) := by
  rw [join]; simp [h]

theorem join_node_ge {lv gv : Int} {ll lr gl gr : RTree} {lp gp : Option Nat}
    {ln ls gn gs : Nat} {rng : Rng}
    (h : ¬ (Rng.next rng (ls + gs)).1 < ls) :
    join (.node lv ll lr lp ln ls) (.node gv gl gr gp gn gs) rng =
      (.node gv
         (setPar (some gn)
           (join (.node lv ll lr lp ln ls) gl (Rng.next rng (ls + gs)).2).1)
         gr gp gn (ls + gs),
       (join (.node lv ll lr lp ln ls) gl (Rng.next rng (ls + gs)).2).2) := by
  rw [join]; simp [h]

/-! Behaviour of RbstNode::split. -/

theorem split_elems (p : Int) (t : RTree) : ∀ lid gid,
    elems (split p lid gid t).1 ++ elems (split p lid gid t).2 = elems t := by
  induction t with
  | nil => intro lid gid; simp [split_nil, elems]
  | node v l r tp tn ts ihl ihr =>
    intro lid gid
    by_cases hp : p < v
    · cases l with
      | nil => simp [split_node_lt_nil hp, elems]
      | node lv ll lr lp lnn lss =>
        have h := ihl lid tn
        rw [split_node_lt hp]
        simp only [elems]
        rw [← List.append_assoc, h]
        simp [elems]
    · cases r with
      | nil => simp [split_node_ge_nil hp, elems]
      | node rv rl rr rp rnn rss =>
        have h := ihr tn gid
        rw [split_node_ge hp]
        simp only [elems]
        rw [List.append_assoc, List.cons_append, h]
        simp [elems]

theorem split_vals (p : Int) (t : RTree) (lid gid : Nat) :
    vals (split p lid gid t).1 ++ vals (split p lid gid t).2 = vals t := by
  simp [vals, ← List.map_append, split_elems]

theorem split_count (p : Int) (t : RTree) (lid gid : Nat) :
    count (split p lid gid t).1 + count (split p lid gid t).2 = count t := by
  simp [count, ← List.length_append, split_elems]

theorem split_sizeOk (p : Int) {t : RTree} (h : sizeOk t) : ∀ lid gid,
    sizeOk (split p lid gid t).1 ∧ sizeOk (split p lid gid t).2 ∧
    osize (split p lid gid t).1 + osize (split p lid gid t).2 = osize t := by
  induction t with
  | nil => intro lid gid; rw [split_nil]; exact ⟨trivial, trivial, rfl⟩
  | node v l r tp tn ts ihl ihr =>
    intro lid gid
    obtain ⟨hs, hl, hr⟩ := h
    by_cases hp : p < v
    · cases l with
      | nil =>
        rw [split_node_lt_nil hp]
        refine ⟨trivial, ⟨?_, trivial, hr⟩, ?_⟩
        · simp [osize]
        · simp only [osize] at hs ⊢; omega
      | node lv ll lr lp lnn lss =>
        obtain ⟨h1, h2, h3⟩ := ihl hl lid tn
        rw [split_node_lt hp]
        refine ⟨h1, ⟨rfl, h2, hr⟩, ?_⟩
        show osize _ + osize (RTree.node v _ r _ tn _) = ts
        simp only [osize] at hs h3 ⊢
        omega
    · cases r with
      | nil =>
        rw [split_node_ge_nil hp]
        refine ⟨⟨?_, hl, trivial⟩, trivial, ?_⟩
        · simp [osize]
        · simp only [osize] at hs ⊢; omega
      | node rv rl rr rp rnn rss =>
        obtain ⟨h1, h2, h3⟩ := ihr hr tn gid
        rw [split_node_ge hp]
        refine ⟨⟨rfl, hl, h1⟩, h2, ?_⟩
        show osize (RTree.node v l _ _ tn _) + osize _ = ts
        simp only [osize] at hs h3 ⊢
        omega

theorem parChild_rootParEq {i : Nat} {t : RTree} (h : rootParEq t (some i)) :
    parChild i t := by
  cases t with
  | nil => trivial
  | node v l r p n s => exact h

theorem rootParEq_parChild {i : Nat} {t : RTree} (h : parChild i t) :
    rootParEq t (some i) := by
  cases t with
  | nil => trivial
  | node v l r p n s => exact h

theorem split_parOk (p : Int) {t : RTree} (h : parOk t) : ∀ lid gid,
    parOk (split p lid gid t).1 ∧ parOk (split p lid gid t).2 ∧
    parChild lid (split p lid gid t).1 ∧ parChild gid (split p lid gid t).2 := by
  induction t with
  | nil => intro lid gid; rw [split_nil]; exact ⟨trivial, trivial, trivial, trivial⟩
  | node v l r tp tn ts ihl ihr =>
    intro lid gid
    obtain ⟨hcl, hcr, hl, hr⟩ := h
    by_cases hp : p < v
    · cases l with
      | nil =>
        rw [split_node_lt_nil hp]
        exact ⟨trivial, ⟨trivial, hcr, trivial, hr⟩, trivial, rfl⟩
      | node lv ll lr lp lnn lss =>
        obtain ⟨h1, h2, h3, h4⟩ := ihl hl lid tn
        rw [split_node_lt hp]
        exact ⟨h1, ⟨h4, hcr, h2, hr⟩, h3, rfl⟩
    · cases r with
      | nil =>
        rw [split_node_ge_nil hp]
        exact ⟨⟨hcl, trivial, hl, trivial⟩, trivial, rfl, trivial⟩
      | node rv rl rr rp rnn rss =>
        obtain ⟨h1, h2, h3, h4⟩ := ihr hr tn gid
        rw [split_node_ge hp]
        exact ⟨⟨hcl, h3, hl, h1⟩, h2, rfl, h4⟩

theorem mem_vals_split_fst {p x : Int} {t : RTree} {lid gid : Nat}
    (h : x ∈ vals (split p lid gid t).1) : x ∈ vals t := by
  rw [← split_vals p t lid gid]
  exact List.mem_append_left _ h

theorem mem_vals_split_snd {p x : Int} {t : RTree} {lid gid : Nat}
    (h : x ∈ vals (split p lid gid t).2) : x ∈ vals t := by
  rw [← split_vals p t lid gid]
  exact List.mem_append_right _ h

theorem split_bst (p : Int) {t : RTree} (h : bstOk t) : ∀ lid gid,
    bstOk (split p lid gid t).1 ∧ bstOk (split p lid gid t).2 ∧
    (∀ x ∈ vals (split p lid gid t).1, x ≤ p) ∧
    (∀ x ∈ vals (split p lid gid t).2, p < x) := by
  induction t with
  | nil =>
    intro lid gid; rw [split_nil]
    exact ⟨trivial, trivial, by simp [vals, elems], by simp [vals, elems]⟩
  | node v l r tp tn ts ihl ihr =>
    intro lid gid
    obtain ⟨hbl, hbr, hl, hr⟩ := h
    by_cases hp : p < v
    · cases l with
      | nil =>
        rw [split_node_lt_nil hp]
        refine ⟨trivial, ⟨?_, hbr, trivial, hr⟩, ?_, ?_⟩
        · simp [vals, elems]
        · simp [vals, elems]
        · intro x hx
          rw [vals_node] at hx
          simp only [vals, elems, List.map_nil, List.nil_append] at hx
          rcases List.mem_cons.1 hx with rfl | hx
          · exact hp
          · exact lt_of_lt_of_le hp (hbr x hx)
      | node lv ll lr lp lnn lss =>
        obtain ⟨ih1, ih2, ih3, ih4⟩ := ihl hl lid tn
        rw [split_node_lt hp]
        refine ⟨ih1, ⟨?_, hbr, ih2, hr⟩, ih3, ?_⟩
        · intro x hx
          exact hbl x (mem_vals_split_snd hx)
        · intro x hx
          rw [vals_node] at hx
          rcases List.mem_append.1 hx with hx | hx
          · exact ih4 x hx
          · rcases List.mem_cons.1 hx with rfl | hx
            · exact hp
            · exact lt_of_lt_of_le hp (hbr x hx)
    · have hvp : v ≤ p := le_of_not_lt hp
      cases r with
      | nil =>
        rw [split_node_ge_nil hp]
        refine ⟨⟨hbl, ?_, hl, trivial⟩, trivial, ?_, ?_⟩
        · simp [vals, elems]
        · intro x hx
          rw [vals_node] at hx
          simp only [vals, elems, List.map_nil] at hx
          rcases List.mem_append.1 hx with hx | hx
          · exact le_trans (hbl x hx) hvp
          · rcases List.mem_cons.1 hx with rfl | hx
            · exact hvp
            · exact absurd hx (List.not_mem_nil x)
        · simp [vals, elems]
      | node rv rl rr rp rnn rss =>
        obtain ⟨ih1, ih2, ih3, ih4⟩ := ihr hr tn gid
        rw [split_node_ge hp]
        refine ⟨⟨hbl, ?_, hl, ih1⟩, ih2, ?_, ih4⟩
        · intro x hx
          exact hbr x (mem_vals_split_fst hx)
        · intro x hx
          rw [vals_node] at hx
          rcases List.mem_append.1 hx with hx | hx
          · exact le_trans (hbl x hx) hvp
          · rcases List.mem_cons.1 hx with rfl | hx
            · exact hvp
            · exact ih3 x hx

/-! Behaviour of RbstNode::join. -/

theorem join_elems (a b : RTree) (rng : Rng) :
    elems (join a b rng).1 = elems a ++ elems b := by
  induction a, b, rng using join.induct with
  | case1 g rng => simp [join_nil, elems]
  | case2 l rng h => simp [join_nil_r, elems]
  | case3 lv ll lr lp ln ls gv gl gr gp gn gs rng d hd ih =>
    have hdd : d = Rng.next rng (ls + gs) := rfl
    rw [hdd] at hd ih
    rw [join_node_lt hd]
    simp only [elems, elems_setPar, ih]
    simp
  | case4 lv ll lr lp ln ls gv gl gr gp gn gs rng d hd ih =>
    have hdd : d = Rng.next rng (ls + gs) := rfl
    rw [hdd] at hd ih
    rw [join_node_ge hd]
    simp only [elems, elems_setPar, ih]
    simp

theorem join_vals (a b : RTree) (rng : Rng) :
    vals (join a b rng).1 = vals a ++ vals b := by
  simp [vals, join_elems]

theorem join_count (a b : RTree) (rng : Rng) :
    count (join a b rng).1 = count a + count b := by
  simp [count, join_elems]

theorem join_sizeOk (a b : RTree) (rng : Rng) : sizeOk a → sizeOk b →
    sizeOk (join a b rng).1 ∧ osize (join a b rng).1 = osize a + osize b := by
  induction a, b, rng using join.induct with
  | case1 g rng =>
    intro _ hb
    rw [join_nil]
    exact ⟨hb, by simp [osize]⟩
  | case2 l rng h =>
    intro ha _
    rw [join_nil_r]
    exact ⟨ha, by simp [osize]⟩
  | case3 lv ll lr lp ln ls gv gl gr gp gn gs rng d hd ih =>
    have hdd : d = Rng.next rng (ls + gs) := rfl
    rw [hdd] at hd ih
    intro ha hb
    obtain ⟨hs, hal, har⟩ := ha
    obtain ⟨ih1, ih2⟩ := ih har hb
    rw [join_node_lt hd]
    refine ⟨⟨?_, hal, sizeOk_setPar ih1⟩, ?_⟩
    · rw [osize_setPar, ih2]
      simp only [osize] at hs ⊢
      omega
    · simp [osize]
  | case4 lv ll lr lp ln ls gv gl gr gp gn gs rng d hd ih =>
    have hdd : d = Rng.next rng (ls + gs) := rfl
    rw [hdd] at hd ih
    intro ha hb
    obtain ⟨hs, hbl, hbr⟩ := hb
    obtain ⟨ih1, ih2⟩ := ih ha hbl
    rw [join_node_ge hd]
    refine ⟨⟨?_, sizeOk_setPar ih1, hbr⟩, ?_⟩
    · rw [osize_setPar, ih2]
      simp only [osize] at hs ⊢
      omega
    · simp [osize]

theorem join_parOk (a b : RTree) (rng : Rng) : parOk a → parOk b →
    parOk (join a b rng).1 := by
  induction a, b, rng using join.induct with
  | case1 g rng => intro _ hb; rw [join_nil]; exact hb
  | case2 l rng h => intro ha _; rw [join_nil_r]; exact ha
  | case3 lv ll lr lp ln ls gv gl gr gp gn gs rng d hd ih =>
    have hdd : d = Rng.next rng (ls + gs) := rfl
    rw [hdd] at hd ih
    intro ha hb
    obtain ⟨hcl, hcr, hal, har⟩ := ha
    rw [join_node_lt hd]
    exact ⟨hcl, parChild_rootParEq (rootParEq_setPar _ _),
      hal, parOk_setPar (ih har hb)⟩
  | case4 lv ll lr lp ln ls gv gl gr gp gn gs rng d hd ih =>
    have hdd : d = Rng.next rng (ls + gs) := rfl
    rw [hdd] at hd ih
    intro ha hb
    obtain ⟨hcl, hcr, hbl, hbr⟩ := hb
    rw [join_node_ge hd]
    exact ⟨parChild_rootParEq (rootParEq_setPar _ _), hcr,
      parOk_setPar (ih ha hbl), hbr⟩

theorem mem_vals_root (v : Int) (l r : RTree) (p : Option Nat) (n s : Nat) :
    v ∈ vals (.node v l r p n s) := by
  rw [vals_node]
  exact List.mem_append_right _ (List.mem_cons_self _ _)

theorem mem_vals_left {x v : Int} {l r : RTree} {p : Option Nat} {n s : Nat}
    (h : x ∈ vals l) : x ∈ vals (.node v l r p n s) := by
  rw [vals_node]
  exact List.mem_append_left _ h

theorem mem_vals_right {x v : Int} {l r : RTree} {p : Option Nat} {n s : Nat}
    (h : x ∈ vals r) : x ∈ vals (.node v l r p n s) := by
  rw [vals_node]
  exact List.mem_append_right _ (List.mem_cons_of_mem _ h)

theorem join_bst (a b : RTree) (rng : Rng) : bstOk a → bstOk b →
    (∀ x ∈ vals a, ∀ y ∈ vals b, x ≤ y) → bstOk (join a b rng).1 := by
  induction a, b, rng using join.induct with
  | case1 g rng => intro _ hb _; rw [join_nil]; exact hb
  | case2 l rng h => intro ha _ _; rw [join_nil_r]; exact ha
  | case3 lv ll lr lp ln ls gv gl gr gp gn gs rng d hd ih =>
    have hdd : d = Rng.next rng (ls + gs) := rfl
    rw [hdd] at hd ih
    intro ha hb hcross
    obtain ⟨hbl, hbr, hal, har⟩ := ha
    rw [join_node_lt hd]
    refine ⟨hbl, ?_, hal, bstOk_setPar (ih har hb ?_)⟩
    · intro x hx
      rw [vals_setPar, join_vals] at hx
      rcases List.mem_append.1 hx with hx | hx
      · exact hbr x hx
      · exact hcross lv (mem_vals_root _ _ _ _ _ _) x hx
    · intro x hx y hy
      exact hcross x (mem_vals_right hx) y hy
  | case4 lv ll lr lp ln ls gv gl gr gp gn gs rng d hd ih =>
    have hdd : d = Rng.next rng (ls + gs) := rfl
    rw [hdd] at hd ih
    intro ha hb hcross
    obtain ⟨hbl, hbr, hgl, hgr⟩ := hb
    rw [join_node_ge hd]
    refine ⟨?_, hbr, bstOk_setPar (ih ha hgl ?_), hgr⟩
    · intro x hx
      rw [vals_setPar, join_vals] at hx
      rcases List.mem_append.1 hx with hx | hx
      · exact hcross x hx gv (mem_vals_root _ _ _ _ _ _)
      · exact hbl x hx
    · intro x hx y hy
      exact hcross x hx y (mem_vals_left hy)

/-! Behaviour of RbstNode::insert. -/

theorem insert_elems (nv : Int) (newId : Nat) : ∀ (t : RTree)
    (parent : Option Nat) (rng : Rng),
    (elems (insert nv newId parent t rng).1).Perm ((newId, nv) :: elems t) := by
  intro t
  induction t with
  | nil => intro parent rng; rw [insert_nil]; simp [elems]
  | node v l r tp tn ts ihl ihr =>
    intro parent rng
    by_cases h0 : (Rng.next rng (1 + ts)).1 = 0
    · rw [insert_node_hit newId parent h0]
      simp only [elems]
      have h := @List.perm_middle _ (newId, nv)
        (elems (split nv newId newId (.node v l r tp tn ts)).1)
        (elems (split nv newId newId (.node v l r tp tn ts)).2)
      rw [split_elems] at h
      exact h
    · by_cases hv : nv < v
      · rw [insert_node_left newId parent h0 hv]
        simp only [elems]
        rw [← List.cons_append]
        exact (ihl _ _).append_right _
      · rw [insert_node_right newId parent h0 hv]
        simp only [elems]
        have h1 := ((ihr (some tn) (Rng.next rng (1 + ts)).2).cons
          (tn, v)).append_left (elems l)
        have h2 := (List.Perm.swap (newId, nv) (tn, v) (elems r)).append_left
          (elems l)
        have h3 := @List.perm_middle _ (newId, nv) (elems l) ((tn, v) :: elems r)
        exact h1.trans (h2.trans h3)

theorem insert_vals (nv : Int) (newId : Nat) (t : RTree) (parent : Option Nat)
    (rng : Rng) :
    (vals (insert nv newId parent t rng).1).Perm (nv :: vals t) := by
  have h := (insert_elems nv newId t parent rng).map Prod.snd
  simpa [vals] using h

theorem insert_count (nv : Int) (newId : Nat) (t : RTree) (parent : Option Nat)
    (rng : Rng) :
    count (insert nv newId parent t rng).1 = count t + 1 := by
  have h := (insert_elems nv newId t parent rng).length_eq
  simp only [List.length_cons] at h
  simpa [count] using h

theorem insert_sizeOk (nv : Int) (newId : Nat) : ∀ (t : RTree)
    (parent : Option Nat) (rng : Rng), sizeOk t →
    sizeOk (insert nv newId parent t rng).1 ∧
    osize (insert nv newId parent t rng).1 = osize t + 1 := by
  intro t
  induction t with
  | nil =>
    intro parent rng _
    rw [insert_nil]
    exact ⟨⟨by simp [osize], trivial, trivial⟩, rfl⟩
  | node v l r tp tn ts ihl ihr =>
    intro parent rng h
    obtain ⟨hs, hl, hr⟩ := h
    by_cases h0 : (Rng.next rng (1 + ts)).1 = 0
    · obtain ⟨s1, s2, s3⟩ := @split_sizeOk nv (.node v l r tp tn ts)
        ⟨hs, hl, hr⟩ newId newId
      rw [insert_node_hit newId parent h0]
      refine ⟨⟨rfl, s1, s2⟩, ?_⟩
      simp only [osize] at s3 ⊢
      omega
    · by_cases hv : nv < v
      · obtain ⟨ih1, ih2⟩ := ihl (some tn) (Rng.next rng (1 + ts)).2 hl
        rw [insert_node_left newId parent h0 hv]
        refine ⟨⟨?_, ih1, hr⟩, rfl⟩
        simp only [osize] at hs ih2 ⊢
        omega
      · obtain ⟨ih1, ih2⟩ := ihr (some tn) (Rng.next rng (1 + ts)).2 hr
        rw [insert_node_right newId parent h0 hv]
        refine ⟨⟨?_, hl, ih1⟩, rfl⟩
        simp only [osize] at hs ih2 ⊢
        omega

theorem insert_parOk (nv : Int) (newId : Nat) : ∀ (t : RTree)
    (parent : Option Nat) (rng : Rng), parOk t → rootParEq t parent →
    parOk (insert nv newId parent t rng).1 ∧
    rootParEq (insert nv newId parent t rng).1 parent := by
  intro t
  induction t with
  | nil =>
    intro parent rng _ _
    rw [insert_nil]
    exact ⟨⟨trivial, trivial, trivial, trivial⟩, rfl⟩
  | node v l r tp tn ts ihl ihr =>
    intro parent rng h hpar
    obtain ⟨hcl, hcr, hl, hr⟩ := h
    by_cases h0 : (Rng.next rng (1 + ts)).1 = 0
    · obtain ⟨p1, p2, p3, p4⟩ := @split_parOk nv (.node v l r tp tn ts)
        ⟨hcl, hcr, hl, hr⟩ newId newId
      rw [insert_node_hit newId parent h0]
      exact ⟨⟨p3, p4, p1, p2⟩, rfl⟩
    · by_cases hv : nv < v
      · obtain ⟨ih1, ih2⟩ := ihl (some tn) (Rng.next rng (1 + ts)).2 hl
          (rootParEq_parChild hcl)
        rw [insert_node_left newId parent h0 hv]
        exact ⟨⟨parChild_rootParEq ih2, hcr, ih1, hr⟩, hpar⟩
      · obtain ⟨ih1, ih2⟩ := ihr (some tn) (Rng.next rng (1 + ts)).2 hr
          (rootParEq_parChild hcr)
        rw [insert_node_right newId parent h0 hv]
        exact ⟨⟨hcl, parChild_rootParEq ih2, hl, ih1⟩, hpar⟩

theorem insert_bst (nv : Int) (newId : Nat) : ∀ (t : RTree)
    (parent : Option Nat) (rng : Rng), bstOk t →
    bstOk (insert nv newId parent t rng).1 := by
  intro t
  induction t with
  | nil =>
    intro parent rng _
    rw [insert_nil]
    exact ⟨by simp [vals, elems], by simp [vals, elems], trivial, trivial⟩
  | node v l r tp tn ts ihl ihr =>
    intro parent rng h
    obtain ⟨hbl, hbr, hl, hr⟩ := h
    by_cases h0 : (Rng.next rng (1 + ts)).1 = 0
    · obtain ⟨b1, b2, b3, b4⟩ := @split_bst nv (.node v l r tp tn ts)
        ⟨hbl, hbr, hl, hr⟩ newId newId
      rw [insert_node_hit newId parent h0]
      exact ⟨b3, fun x hx => le_of_lt (b4 x hx), b1, b2⟩
    · by_cases hv : nv < v
      · rw [insert_node_left newId parent h0 hv]
        refine ⟨?_, hbr, ihl _ _ hl, hr⟩
        intro x hx
        rcases List.mem_cons.1 ((insert_vals nv newId l (some tn) _).mem_iff.1 hx)
          with rfl | hx1
        · exact le_of_lt hv
        · exact hbl x hx1
      · rw [insert_node_right newId parent h0 hv]
        refine ⟨hbl, ?_, hl, ihr _ _ hr⟩
        intro x hx
        rcases List.mem_cons.1 ((insert_vals nv newId r (some tn) _).mem_iff.1 hx)
          with rfl | hx1
        · exact le_of_not_lt hv
        · exact hbr x hx1

/-! Behaviour of RbstNode::erase. -/

theorem elems_decUp (path : List Step) (t : RTree) :
    elems (decUp path t) = elemsBef path ++ elems t ++ elemsAft path := by
  induction path generalizing t with
  | nil => simp [decUp, elemsBef, elemsAft]
  | cons s rest ih =>
    cases s with
    | fromL v sib p n sz =>
      simp [decUp, plugStep, stepDec, ih, elems, elemsBef, elemsAft]
    | fromR v sib p n sz =>
      simp [decUp, plugStep, stepDec, ih, elems, elemsBef, elemsAft]

theorem parOk_plug_head {s : Step} {rest : List Step} {t : RTree}
    (h : parOk (plug (s :: rest) t)) : parChild (stepId s) t := by
  have h2 : parOk (plugStep s t) := @parOk_of_plug rest (plugStep s t) h
  cases s with
  | fromL v sib p n sz => exact h2.1
  | fromR v sib p n sz => exact h2.2.1

theorem decUp_inv : ∀ (path : List Step) (t u : RTree),
    sizeOk (plug path t) → parOk (plug path t) → bstOk (plug path t) →
    sizeOk u → parOk u → bstOk u →
    count u + 1 = count t →
    (∀ x ∈ vals u, x ∈ vals t) →
    (∀ s rest, path = s :: rest → parChild (stepId s) u) →
    (∀ pp, rootParEq t pp → rootParEq u pp) →
    (sizeOk (decUp path u) ∧ parOk (decUp path u) ∧ bstOk (decUp path u)) ∧
    (∀ pp, rootParEq (plug path t) pp → rootParEq (decUp path u) pp) := by
  intro path
  induction path with
  | nil =>
    intro t u hs hp hb hsu hpu hbu hc hv _ hroot
    exact ⟨⟨hsu, hpu, hbu⟩, hroot⟩
  | cons s rest ih =>
    intro t u hs hp hb hsu hpu hbu hc hv hhead hroot
    have hts : sizeOk (plugStep s t) := sizeOk_of_plug hs
    have htp : parOk (plugStep s t) := parOk_of_plug hp
    have htb : bstOk (plugStep s t) := bstOk_of_plug hb
    have hou : osize u = count u := osize_eq_count hsu
    cases s with
    | fromL v sib p n sz =>
      obtain ⟨hs1, hs2, hs3⟩ := hts
      obtain ⟨hp1, hp2, hp3, hp4⟩ := htp
      obtain ⟨hb1, hb2, hb3, hb4⟩ := htb
      have hot : osize t = count t := osize_eq_count hs2
      refine ih (plugStep (.fromL v sib p n sz) t)
        (plugStep (stepDec (.fromL v sib p n sz)) u) hs hp hb
        ⟨?_, hsu, hs3⟩ ⟨?_, hp2, hpu, hp4⟩
        ⟨?_, hb2, hbu, hb4⟩ ?_ ?_ ?_ ?_
      · show sz - 1 = 1 + osize u + osize sib
        omega
      · exact hhead _ _ rfl
      · intro x hx
        exact hb1 x (hv x hx)
      · show count (RTree.node v u sib p n (sz - 1)) + 1 =
          count (RTree.node v t sib p n sz)
        rw [count_node, count_node]
        omega
      · intro x hx
        have hx2 : x ∈ vals (RTree.node v u sib p n (sz - 1)) := hx
        show x ∈ vals (RTree.node v t sib p n sz)
        rw [vals_node] at hx2 ⊢
        rcases List.mem_append.1 hx2 with hx3 | hx3
        · exact List.mem_append_left _ (hv x hx3)
        · exact List.mem_append_right _ hx3
      · intro s2 rest2 heq
        subst heq
        have h9 : parChild (stepId s2)
            (plugStep (Step.fromL v sib p n sz) t) :=
          @parOk_plug_head s2 rest2 (plugStep (Step.fromL v sib p n sz) t) hp
        have h10 : p = some (stepId s2) := h9
        exact h10
      · intro pp hpp
        exact hpp
    | fromR v sib p n sz =>
      obtain ⟨hs1, hs2, hs3⟩ := hts
      obtain ⟨hp1, hp2, hp3, hp4⟩ := htp
      obtain ⟨hb1, hb2, hb3, hb4⟩ := htb
      have hot : osize t = count t := osize_eq_count hs3
      refine ih (plugStep (.fromR v sib p n sz) t)
        (plugStep (stepDec (.fromR v sib p n sz)) u) hs hp hb
        ⟨?_, hs2, hsu⟩ ⟨hp1, ?_, hp3, hpu⟩
        ⟨hb1, ?_, hb3, hbu⟩ ?_ ?_ ?_ ?_
      · show sz - 1 = 1 + osize sib + osize u
        omega
      · exact hhead _ _ rfl
      · intro x hx
        exact hb2 x (hv x hx)
      · show count (RTree.node v sib u p n (sz - 1)) + 1 =
          count (RTree.node v sib t p n sz)
        rw [count_node, count_node]
        omega
      · intro x hx
        have hx2 : x ∈ vals (RTree.node v sib u p n (sz - 1)) := hx
        show x ∈ vals (RTree.node v sib t p n sz)
        rw [vals_node] at hx2 ⊢
        rcases List.mem_append.1 hx2 with hx3 | hx3
        · exact List.mem_append_left _ hx3
        · rcases List.mem_cons.1 hx3 with rfl | hx3
          · exact List.mem_append_right _ (List.mem_cons_self _ _)
          · exact List.mem_append_right _ (List.mem_cons_of_mem _ (hv x hx3))
      · intro s2 rest2 heq
        subst heq
        have h9 : parChild (stepId s2)
            (plugStep (Step.fromR v sib p n sz) t) :=
          @parOk_plug_head s2 rest2 (plugStep (Step.fromR v sib p n sz) t) hp
        have h10 : p = some (stepId s2) := h9
        exact h10
      · intro pp hpp
        exact hpp

theorem erase_eq_decUp (path : List Step) (v : Int) (l r : RTree)
    (tp : Option Nat) (tn ts : Nat) (rng : Rng) :
    erase path (.node v l r tp tn ts) rng =
      (decUp path (setPar tp (join l r rng).1), (join l r rng).2) := by
  cases path <;> simp [erase, decUp]

theorem erase_inv (path : List Step) (v : Int) (l r : RTree) (tp : Option Nat)
    (tn ts : Nat) (rng : Rng)
    (hs : sizeOk (plug path (.node v l r tp tn ts)))
    (hp : parOk (plug path (.node v l r tp tn ts)))
    (hb : bstOk (plug path (.node v l r tp tn ts))) :
    (Inv (erase path (.node v l r tp tn ts) rng).1 ∧
     (∀ pp, rootParEq (plug path (.node v l r tp tn ts)) pp →
        rootParEq (erase path (.node v l r tp tn ts) rng).1 pp)) ∧
    elems (erase path (.node v l r tp tn ts) rng).1 =
      elemsBef path ++ (elems l ++ elems r) ++ elemsAft path := by
  obtain ⟨hs1, hsl, hsr⟩ :
      sizeOk (RTree.node v l r tp tn ts) := sizeOk_of_plug hs
  obtain ⟨hpcl, hpcr, hpl, hpr⟩ :
      parOk (RTree.node v l r tp tn ts) := parOk_of_plug hp
  obtain ⟨hbl, hbr, hbbl, hbbr⟩ :
      bstOk (RTree.node v l r tp tn ts) := bstOk_of_plug hb
  have hcross : ∀ x ∈ vals l, ∀ y ∈ vals r, x ≤ y := fun x hx y hy =>
    le_trans (hbl x hx) (hbr y hy)
  obtain ⟨js, _⟩ := join_sizeOk l r rng hsl hsr
  have jp := join_parOk l r rng hpl hpr
  have jb := join_bst l r rng hbbl hbbr hcross
  have hsu : sizeOk (setPar tp (join l r rng).1) := sizeOk_setPar js
  have hpu : parOk (setPar tp (join l r rng).1) := parOk_setPar jp
  have hbu : bstOk (setPar tp (join l r rng).1) := bstOk_setPar jb
  have hcu : count (setPar tp (join l r rng).1) + 1 =
      count (RTree.node v l r tp tn ts) := by
    rw [count_setPar, join_count, count_node]
    omega
  have hvu : ∀ x ∈ vals (setPar tp (join l r rng).1),
      x ∈ vals (RTree.node v l r tp tn ts) := by
    intro x hx
    rw [vals_setPar, join_vals] at hx
    rcases List.mem_append.1 hx with hx | hx
    · exact mem_vals_left hx
    · exact mem_vals_right hx
  have hhead : ∀ s rest, path = s :: rest →
      parChild (stepId s) (setPar tp (join l r rng).1) := by
    intro s rest heq
    subst heq
    have h9 : parChild (stepId s) (RTree.node v l r tp tn ts) :=
      parOk_plug_head hp
    have h10 : tp = some (stepId s) := h9
    rw [h10]
    exact parChild_rootParEq (rootParEq_setPar _ _)
  have hroot : ∀ pp, rootParEq (RTree.node v l r tp tn ts) pp →
      rootParEq (setPar tp (join l r rng).1) pp := by
    intro pp hpp
    have h10 : tp = pp := hpp
    rw [← h10]
    exact rootParEq_setPar _ _
  obtain ⟨hinv, hrt⟩ := decUp_inv path (RTree.node v l r tp tn ts)
    (setPar tp (join l r rng).1) hs hp hb hsu hpu hbu hcu hvu hhead hroot
  rw [erase_eq_decUp]
  refine ⟨⟨hinv, hrt⟩, ?_⟩
  rw [elems_decUp, elems_setPar, join_elems]

theorem atLoc_nil (path : List Step) (i : Nat) : atLoc path .nil i = none := by
  rw [atLoc]

theorem atLoc_node (path : List Step) (v : Int) (l r : RTree) (p : Option Nat)
    (n s : Nat) (i : Nat) :
    atLoc path (.node v l r p n s) i =
      if i < osize l then atLoc (.fromL v r p n s :: path) l i
      else if i > osize l then atLoc (.fromR v l p n s :: path) r (i - osize l - 1)
      else some (path, .node v l r p n s) := by
  rw [atLoc]

theorem atLoc_plug : ∀ (t : RTree) (path : List Step) (i : Nat)
    (q : List Step × RTree), atLoc path t i = some q →
    plug q.1 q.2 = plug path t ∧ q.2 ≠ RTree.nil := by
  intro t
  induction t with
  | nil =>
    intro path i q h
    rw [atLoc_nil] at h
    exact absurd h (by simp)
  | node v l r p n s ihl ihr =>
    intro path i q h
    rw [atLoc_node] at h
    by_cases h1 : i < osize l
    · rw [if_pos h1] at h
      exact ihl _ _ _ h
    · rw [if_neg h1] at h
      by_cases h2 : i > osize l
      · rw [if_pos h2] at h
        exact ihr _ _ _ h
      · rw [if_neg h2] at h
        cases h
        exact ⟨rfl, by simp⟩

/-! Invariant preservation over arbitrary operation sequences. -/

theorem applyOp_inv {st : St} (h1 : Inv st.root) (h2 : rootParEq st.root none)
    (op : Op) :
    Inv (applyOp st op).root ∧ rootParEq (applyOp st op).root none := by
  obtain ⟨hs, hp, hb⟩ := h1
  cases op with
  | ins v =>
    obtain ⟨i1, _⟩ := insert_sizeOk v st.counter st.root none st.rng hs
    obtain ⟨i2, i3⟩ := insert_parOk v st.counter st.root none st.rng hp h2
    have i4 := insert_bst v st.counter st.root none st.rng hb
    exact ⟨⟨i1, i2, i4⟩, i3⟩
  | del i =>
    show Inv (applyOp st (.del i)).root ∧ _
    cases hat : atLoc [] st.root i with
    | none =>
      simp only [applyOp, hat]
      exact ⟨⟨hs, hp, hb⟩, h2⟩
    | some q =>
      obtain ⟨path, u⟩ := q
      obtain ⟨hplug, hne⟩ := atLoc_plug st.root [] i (path, u) hat
      simp only [applyOp, hat]
      cases u with
      | nil => exact absurd rfl hne
      | node uv ul ur up un us =>
        simp only [plug] at hplug
        rw [← hplug] at hs hp hb h2
        obtain ⟨⟨hinv, hrt⟩, _⟩ :=
          erase_inv path uv ul ur up un us st.rng hs hp hb
        exact ⟨hinv, hrt none h2⟩

theorem runOps_inv (f : Nat → Nat) (ops : List Op) :
    Inv (runOps f ops).root ∧ rootParEq (runOps f ops).root none := by
  suffices h : ∀ st : St, Inv st.root → rootParEq st.root none →
      Inv (ops.foldl applyOp st).root ∧
      rootParEq (ops.foldl applyOp st).root none by
    exact h ⟨.nil, ⟨f, 0⟩, 1⟩ ⟨trivial, trivial, trivial⟩ trivial
  induction ops with
  | nil => intro st a b; exact ⟨a, b⟩
  | cons op rest ih =>
    intro st a b
    obtain ⟨c, d⟩ := applyOp_inv a b op
    exact ih _ c d

/-! Rank bookkeeping: atLoc reaches exactly the node of a given rank. -/

theorem count_eq_len (t : RTree) : count t = (elems t).length := rfl

theorem count_plug (path : List Step) (t : RTree) :
    count (plug path t) =
      (elemsBef path).length + count t + (elemsAft path).length := by
  simp [count, elems_plug]
  omega

theorem rankN_lt_count {path : List Step} {t : RTree} (h : t ≠ RTree.nil) :
    rankN path t < count (plug path t) := by
  rw [count_plug, rankN]
  cases t with
  | nil => exact absurd rfl h
  | node v l r p n s =>
    show (elemsBef path).length + count l < _
    rw [count_node]
    omega

theorem atLoc_sound : ∀ (t : RTree) (path : List Step) (k : Nat),
    sizeOk t → k < count t →
    ∃ q : List Step × RTree, atLoc path t k = some q ∧ q.2 ≠ RTree.nil ∧
      plug q.1 q.2 = plug path t ∧ rankN q.1 q.2 = (elemsBef path).length + k := by
  intro t
  induction t with
  | nil => intro path k _ hk; rw [count_nil] at hk; omega
  | node v l r p n s ihl ihr =>
    intro path k hs hk
    obtain ⟨hs1, hsl, hsr⟩ := hs
    rw [atLoc_node]
    have hol : osize l = count l := osize_eq_count hsl
    by_cases h1 : k < osize l
    · rw [if_pos h1]
      obtain ⟨q, hq1, hq2, hq3, hq4⟩ := ihl (.fromL v r p n s :: path) k hsl
        (by omega)
      refine ⟨q, hq1, hq2, hq3, ?_⟩
      rw [hq4]
      simp [elemsBef]
    · rw [if_neg h1]
      by_cases h2 : k > osize l
      · rw [if_pos h2]
        have hkr : k - osize l - 1 < count r := by
          rw [count_node] at hk
          omega
        obtain ⟨q, hq1, hq2, hq3, hq4⟩ := ihr (.fromR v l p n s :: path) _ hsr hkr
        refine ⟨q, hq1, hq2, hq3, ?_⟩
        rw [hq4]
        show (elemsBef (Step.fromR v l p n s :: path)).length +
          (k - osize l - 1) = (elemsBef path).length + k
        simp only [elemsBef, List.length_append, List.length_cons,
          List.length_nil]
        rw [← count_eq_len]
        omega
      · rw [if_neg h2]
        have hkl : k = osize l := by omega
        refine ⟨(path, .node v l r p n s), rfl, by simp, rfl, ?_⟩
        show (elemsBef path).length + count l = (elemsBef path).length + k
        omega

theorem atLoc_complete : ∀ (seg : List Step) (u : RTree), u ≠ RTree.nil →
    sizeOk (plug seg u) → ∀ path : List Step,
    atLoc path (plug seg u) (rankN seg u) = some (seg ++ path, u) := by
  intro seg
  induction seg using List.reverseRecOn with
  | nil =>
    intro u hu hs path
    cases u with
    | nil => exact absurd rfl hu
    | node v l r p n s =>
      obtain ⟨_, hsl, _⟩ := hs
      have hol : osize l = count l := osize_eq_count hsl
      show atLoc path (.node v l r p n s) ((elemsBef []).length + count l) = _
      rw [atLoc_node]
      rw [if_neg (by simp [elemsBef]; omega), if_neg (by simp [elemsBef]; omega)]
      rfl
  | append_singleton rest s ih =>
    intro u hu hs path
    rw [plug_append] at hs ⊢
    have hrank : rankN rest u < count (plug rest u) := rankN_lt_count hu
    cases s with
    | fromL v sib p n sz =>
      have hs2 : sizeOk (plugStep (.fromL v sib p n sz) (plug rest u)) := hs
      obtain ⟨_, hsX, _⟩ := hs2
      have hoX : osize (plug rest u) = count (plug rest u) := osize_eq_count hsX
      have hkey : rankN (rest ++ [Step.fromL v sib p n sz]) u = rankN rest u := by
        rw [rankN, rankN, elemsBef_append]
        simp [elemsBef]
      rw [hkey]
      show atLoc path (.node v (plug rest u) sib p n sz) (rankN rest u) = _
      rw [atLoc_node, if_pos (by omega)]
      rw [ih u hu hsX (.fromL v sib p n sz :: path)]
      rw [List.append_assoc]
      rfl
    | fromR v sib p n sz =>
      have hs2 : sizeOk (plugStep (.fromR v sib p n sz) (plug rest u)) := hs
      obtain ⟨_, hssib, hsX⟩ := hs2
      have hoX : osize (plug rest u) = count (plug rest u) := osize_eq_count hsX
      have hosib : osize sib = (elems sib).length := osize_eq_count hssib
      have hkey : rankN (rest ++ [Step.fromR v sib p n sz]) u =
          (elems sib).length + 1 + rankN rest u := by
        rw [rankN, rankN, elemsBef_append]
        simp [elemsBef]
        omega
      rw [hkey]
      show atLoc path (.node v sib (plug rest u) p n sz)
        ((elems sib).length + 1 + rankN rest u) = _
      rw [atLoc_node]
      rw [if_neg (by omega), if_pos (by omega)]
      have hidx : (elems sib).length + 1 + rankN rest u - osize sib - 1 =
          rankN rest u := by omega
      rw [hidx, ih u hu hsX (.fromR v sib p n sz :: path)]
      rw [List.append_assoc]
      rfl

/-! RbstNode::index computes exactly the rank. -/

theorem indexF_spec : ∀ (path : List Step) (t : RTree) (acc : Nat),
    sizeOk (plug path t) →
    indexF path t acc = (elemsBef path).length + acc := by
  intro path
  induction path with
  | nil => intro t acc _; simp [indexF, elemsBef]
  | cons s rest ih =>
    intro t acc hs
    cases s with
    | fromL v sib p n sz =>
      rw [indexF, ih (RTree.node v t sib p n sz) acc hs]
      simp [elemsBef]
    | fromR v sib p n sz =>
      rw [indexF, ih (RTree.node v sib t p n sz) (acc + (sz - osize t)) hs]
      have h2 : sizeOk (plugStep (.fromR v sib p n sz) t) := sizeOk_of_plug hs
      obtain ⟨h3, h4, h5⟩ := h2
      have h6 : osize sib = (elems sib).length := osize_eq_count h4
      simp [elemsBef]
      omega

theorem indexN_eq_rankN {path : List Step} {t : RTree}
    (hs : sizeOk (plug path t)) : indexN path t = rankN path t := by
  rw [indexN, indexF_spec path t _ hs, rankN]
  have h1 : sizeOk t := sizeOk_of_plug hs
  have h2 : osize (lchild t) = count (lchild t) := by
    cases t with
    | nil => rfl
    | node v l r p n s => exact osize_eq_count h1.2.1
  omega

/-! Navigation: first, last, successor and predecessor walks. -/

theorem firstD_spec : ∀ (t : RTree) (path : List Step), t ≠ RTree.nil →
    ∃ q : List Step × RTree, firstD path t = q ∧ q.2 ≠ RTree.nil ∧
      plug q.1 q.2 = plug path t ∧ lchild q.2 = RTree.nil ∧
      (elemsBef q.1).length = (elemsBef path).length := by
  intro t
  induction t with
  | nil => intro path h; exact absurd rfl h
  | node v l r p n s ihl ihr =>
    intro path _
    cases l with
    | nil =>
      refine ⟨(path, .node v .nil r p n s), ?_, by simp, rfl, rfl, rfl⟩
      rw [firstD]
    | node lv ll lr lp lnn lss =>
      obtain ⟨q, hq1, hq2, hq3, hq4, hq5⟩ :=
        ihl (.fromL v r p n s :: path) (by simp)
      refine ⟨q, ?_, hq2, hq3, hq4, ?_⟩
      · rw [firstD]; exact hq1
      · rw [hq5]; simp [elemsBef]

theorem lastD_spec : ∀ (t : RTree) (path : List Step), t ≠ RTree.nil →
    ∃ q : List Step × RTree, lastD path t = q ∧ q.2 ≠ RTree.nil ∧
      plug q.1 q.2 = plug path t ∧
      rankN q.1 q.2 = (elemsBef path).length + count t - 1 := by
  intro t
  induction t with
  | nil => intro path h; exact absurd rfl h
  | node v l r p n s ihl ihr =>
    intro path _
    cases r with
    | nil =>
      refine ⟨(path, .node v l .nil p n s), ?_, by simp, rfl, ?_⟩
      · rw [lastD]
      · show (elemsBef path).length + count l = _
        rw [count_node, count_nil]
        omega
    | node rv rl rr rp rnn rss =>
      obtain ⟨q, hq1, hq2, hq3, hq4⟩ := ihr (.fromR v l p n s :: path) (by simp)
      refine ⟨q, ?_, hq2, hq3, ?_⟩
      · rw [lastD]; exact hq1
      · rw [hq4]
        simp only [elemsBef, List.length_append, List.length_cons,
          List.length_nil, count_node]
        rw [← count_eq_len]
        omega

theorem upFromRight_spec : ∀ (path : List Step) (t : RTree), t ≠ RTree.nil →
    (elemsAft path = [] → upFromRight path t = none) ∧
    (elemsAft path ≠ [] → ∃ q : List Step × RTree,
      upFromRight path t = some q ∧ q.2 ≠ RTree.nil ∧
      plug q.1 q.2 = plug path t ∧
      rankN q.1 q.2 = (elemsBef path).length + count t) := by
  intro path
  induction path with
  | nil =>
    intro t _
    exact ⟨fun _ => rfl, fun h => absurd rfl h⟩
  | cons s rest ih =>
    intro t ht
    cases s with
    | fromL v sib p n sz =>
      constructor
      · intro h
        exact absurd h (by simp [elemsAft])
      · intro _
        refine ⟨(rest, .node v t sib p n sz), rfl, by simp, rfl, ?_⟩
        show (elemsBef rest).length + count t = _
        simp [elemsBef]
    | fromR v sib p n sz =>
      have ih2 := ih (.node v sib t p n sz) (by simp)
      constructor
      · intro h
        rw [upFromRight]
        exact ih2.1 (by simpa [elemsAft] using h)
      · intro h
        obtain ⟨q, hq1, hq2, hq3, hq4⟩ := ih2.2 (by simpa [elemsAft] using h)
        refine ⟨q, ?_, hq2, hq3, ?_⟩
        · rw [upFromRight]; exact hq1
        · rw [hq4]
          simp only [elemsBef, List.length_append, List.length_cons,
            List.length_nil, count_node]
          rw [← count_eq_len]
          omega

theorem upFromLeft_spec : ∀ (path : List Step) (t : RTree), t ≠ RTree.nil →
    (elemsBef path = [] → upFromLeft path t = none) ∧
    (elemsBef path ≠ [] → ∃ q : List Step × RTree,
      upFromLeft path t = some q ∧ q.2 ≠ RTree.nil ∧
      plug q.1 q.2 = plug path t ∧
      rankN q.1 q.2 + 1 = (elemsBef path).length) := by
  intro path
  induction path with
  | nil =>
    intro t _
    exact ⟨fun _ => rfl, fun h => absurd rfl h⟩
  | cons s rest ih =>
    intro t ht
    cases s with
    | fromR v sib p n sz =>
      constructor
      · intro h
        exact absurd h (by simp [elemsBef])
      · intro _
        refine ⟨(rest, .node v sib t p n sz), rfl, by simp, rfl, ?_⟩
        show (elemsBef rest).length + count sib + 1 = _
        simp only [elemsBef, List.length_append, List.length_cons,
          List.length_nil]
        rw [← count_eq_len]
    | fromL v sib p n sz =>
      have ih2 := ih (.node v t sib p n sz) (by simp)
      constructor
      · intro h
        rw [upFromLeft]
        exact ih2.1 (by simpa [elemsBef] using h)
      · intro h
        obtain ⟨q, hq1, hq2, hq3, hq4⟩ := ih2.2 (by simpa [elemsBef] using h)
        refine ⟨q, ?_, hq2, hq3, ?_⟩
        · rw [upFromLeft]; exact hq1
        · rw [hq4]
          simp [elemsBef]

theorem nextN_spec (path : List Step) (v : Int) (l r : RTree) (p : Option Nat)
    (n s : Nat) (hs : sizeOk (plug path (.node v l r p n s))) :
    nextN path (.node v l r p n s) =
      if rankN path (.node v l r p n s) + 1 <
          count (plug path (.node v l r p n s)) then
        atLoc [] (plug path (.node v l r p n s))
          (rankN path (.node v l r p n s) + 1)
      else none := by
  cases r with
  | node rv rl rr rp rnn rss =>
    obtain ⟨q, hq1, hq2, hq3, hq4, hq5⟩ :=
      firstD_spec (.node rv rl rr rp rnn rss) (.fromR v l p n s :: path)
        (by simp)
    have h7 : count (lchild q.2) = 0 := by rw [hq4]; rfl
    have hrank : rankN q.1 q.2 =
        rankN path (.node v l (.node rv rl rr rp rnn rss) p n s) + 1 := by
      simp only [rankN, h7, hq5]
      simp only [lchild, elemsBef, List.length_append, List.length_cons,
        List.length_nil]
      rw [← count_eq_len]
    have hsq : sizeOk (plug q.1 q.2) := by
      rw [show plug q.1 q.2 =
        plug path (.node v l (.node rv rl rr rp rnn rss) p n s) from hq3]
      exact hs
    have hlt : rankN path (.node v l (.node rv rl rr rp rnn rss) p n s) + 1 <
        count (plug path (.node v l (.node rv rl rr rp rnn rss) p n s)) := by
      have h5 := @rankN_lt_count q.1 q.2 hq2
      rw [hrank] at h5
      rw [show plug q.1 q.2 =
        plug path (.node v l (.node rv rl rr rp rnn rss) p n s) from hq3] at h5
      exact h5
    rw [if_pos hlt]
    have hc := atLoc_complete q.1 q.2 hq2 hsq []
    rw [hrank, List.append_nil] at hc
    rw [show plug q.1 q.2 =
      plug path (.node v l (.node rv rl rr rp rnn rss) p n s) from hq3] at hc
    rw [nextN, hc, hq1]
  | nil =>
    obtain ⟨hup_none, hup_some⟩ :=
      upFromRight_spec path (.node v l .nil p n s) (by simp)
    rw [nextN]
    by_cases hA : elemsAft path = []
    · have hrr : rankN path (.node v l .nil p n s) + 1 =
          count (plug path (.node v l .nil p n s)) := by
        rw [count_plug, hA, rankN]
        simp only [lchild, count_node, count_nil, List.length_nil]
        omega
      rw [if_neg (by omega)]
      exact hup_none hA
    · obtain ⟨q, hq1, hq2, hq3, hq4⟩ := hup_some hA
      have hrank : rankN q.1 q.2 = rankN path (.node v l .nil p n s) + 1 := by
        rw [hq4]
        simp only [rankN, lchild, count_node, count_nil]
        omega
      have hsq : sizeOk (plug q.1 q.2) := by
        rw [show plug q.1 q.2 = plug path (.node v l .nil p n s) from hq3]
        exact hs
      have hlt : rankN path (.node v l .nil p n s) + 1 <
          count (plug path (.node v l .nil p n s)) := by
        have h5 := @rankN_lt_count q.1 q.2 hq2
        rw [hrank] at h5
        rw [show plug q.1 q.2 = plug path (.node v l .nil p n s) from hq3] at h5
        exact h5
      rw [if_pos hlt]
      have hc := atLoc_complete q.1 q.2 hq2 hsq []
      rw [hrank, List.append_nil] at hc
      rw [show plug q.1 q.2 = plug path (.node v l .nil p n s) from hq3] at hc
      rw [hc, hq1]

theorem prevN_spec (path : List Step) (v : Int) (l r : RTree) (p : Option Nat)
    (n s : Nat) (hs : sizeOk (plug path (.node v l r p n s))) :
    prevN path (.node v l r p n s) =
      if 0 < rankN path (.node v l r p n s) then
        atLoc [] (plug path (.node v l r p n s))
          (rankN path (.node v l r p n s) - 1)
      else none := by
  cases l with
  | node lv ll lr lp lnn lss =>
    obtain ⟨q, hq1, hq2, hq3, hq4⟩ :=
      lastD_spec (.node lv ll lr lp lnn lss) (.fromL v r p n s :: path)
        (by simp)
    have hpos : 0 < rankN path (.node v (.node lv ll lr lp lnn lss) r p n s) := by
      simp only [rankN, lchild, count_node]
      omega
    have hrank : rankN q.1 q.2 =
        rankN path (.node v (.node lv ll lr lp lnn lss) r p n s) - 1 := by
      rw [hq4]
      simp only [rankN, lchild, elemsBef, List.length_append, List.length_cons,
        List.length_nil, count_node]
    have hsq : sizeOk (plug q.1 q.2) := by
      rw [show plug q.1 q.2 =
        plug path (.node v (.node lv ll lr lp lnn lss) r p n s) from hq3]
      exact hs
    rw [if_pos hpos]
    have hc := atLoc_complete q.1 q.2 hq2 hsq []
    rw [hrank, List.append_nil] at hc
    rw [show plug q.1 q.2 =
      plug path (.node v (.node lv ll lr lp lnn lss) r p n s) from hq3] at hc
    rw [prevN, hc, hq1]
  | nil =>
    obtain ⟨hup_none, hup_some⟩ :=
      upFromLeft_spec path (.node v .nil r p n s) (by simp)
    rw [prevN]
    by_cases hB : elemsBef path = []
    · have hrr : rankN path (.node v .nil r p n s) = 0 := by
        rw [rankN, hB]
        simp [lchild, count_nil]
      rw [if_neg (by omega)]
      exact hup_none hB
    · obtain ⟨q, hq1, hq2, hq3, hq4⟩ := hup_some hB
      have hpos : 0 < rankN path (.node v .nil r p n s) := by
        simp only [rankN, lchild, count_nil]
        have : elemsBef path ≠ [] := hB
        cases hE : elemsBef path with
        | nil => exact absurd hE hB
        | cons a b => simp [hE]
      have hrank : rankN q.1 q.2 = rankN path (.node v .nil r p n s) - 1 := by
        simp only [rankN, lchild, count_nil] at hq4 ⊢
        omega
      have hsq : sizeOk (plug q.1 q.2) := by
        rw [show plug q.1 q.2 = plug path (.node v .nil r p n s) from hq3]
        exact hs
      rw [if_pos hpos]
      have hc := atLoc_complete q.1 q.2 hq2 hsq []
      rw [hrank, List.append_nil] at hc
      rw [show plug q.1 q.2 = plug path (.node v .nil r p n s) from hq3] at hc
      rw [hc, hq1]

/-! RbstNode::offset: descent phase (the target rank lies inside the
current subtree) and full characterization. -/

theorem offsetF_node (fuel : Nat) (path : List Step) (v : Int) (l r : RTree)
    (p : Option Nat) (n s : Nat) (d : Int) :
    offsetF (fuel + 1) path (.node v l r p n s) d =
      if 0 < d ∧ d ≤ (osize r : Int) then
        offsetF fuel (.fromR v l p n s :: path) r
          (d - 1 - (osize (lchild r) : Int))
      else if d < 0 ∧ -d ≤ (osize l : Int) then
        offsetF fuel (.fromL v r p n s :: path) l
          (d + 1 + (osize (rchild l) : Int))
      else if d = 0 then
        some (path, .node v l r p n s)
      else
        match path with
        | [] => none
        | .fromL pv sib pp pn ps :: rest =>
          offsetF fuel rest (.node pv (.node v l r p n s) sib pp pn ps)
            (d - 1 - (osize r : Int))
        | .fromR pv sib pp pn ps :: rest =>
          offsetF fuel rest (.node pv sib (.node v l r p n s) pp pn ps)
            (d + 1 + (osize l : Int)) := by
  rw [offsetF.eq_def]

theorem offsetF_desc : ∀ (t : RTree) (path : List Step) (k fuel : Nat),
    sizeOk t → k < count t → count t + 1 ≤ fuel →
    offsetF fuel path t ((k : Int) - (count (lchild t) : Int)) =
      atLoc path t k := by
  intro t
  induction t with
  | nil => intro path k fuel _ hk _; rw [count_nil] at hk; omega
  | node v l r p n s ihl ihr =>
    intro path k fuel hs hk hf
    obtain ⟨hs1, hsl, hsr⟩ := hs
    obtain ⟨f, rfl⟩ : ∃ f, fuel = f + 1 := ⟨fuel - 1, by omega⟩
    have hol : osize l = count l := osize_eq_count hsl
    have hor : osize r = count r := osize_eq_count hsr
    rw [count_node] at hk hf
    simp only [lchild]
    rw [offsetF_node, atLoc_node]
    rcases Nat.lt_trichotomy k (count l) with hko | hko | hko
    · rw [if_neg (by omega), if_pos (by constructor <;> omega),
        if_pos (by omega)]
      cases l with
      | nil => rw [count_nil] at hko; omega
      | node lv ll lr lp lnn lss =>
        have holr : osize lr = count lr := osize_eq_count hsl.2.2
        have hd : (k : Int) - (count (RTree.node lv ll lr lp lnn lss) : Int) +
            1 + (osize (rchild (RTree.node lv ll lr lp lnn lss)) : Int) =
            (k : Int) -
              (count (lchild (RTree.node lv ll lr lp lnn lss)) : Int) := by
          simp only [rchild, lchild, count_node, holr]
          push_cast
          ring
        rw [hd]
        exact ihl _ k f hsl hko (by omega)
    · rw [if_neg (by omega), if_neg (by omega), if_pos (by omega),
        if_neg (by omega), if_neg (by omega)]
    · rw [if_pos (by constructor <;> omega), if_neg (by omega),
        if_pos (by omega)]
      cases r with
      | nil => rw [count_nil] at hk; omega
      | node rv rl rr rp rnn rss =>
        have horl : osize rl = count rl := osize_eq_count hsr.2.1
        have hd : (k : Int) - (count l : Int) - 1 -
            (osize (lchild (RTree.node rv rl rr rp rnn rss)) : Int) =
            ((k - osize l - 1 : Nat) : Int) -
              (count (lchild (RTree.node rv rl rr rp rnn rss)) : Int) := by
          simp only [lchild, horl, hol]
          omega
        rw [hd]
        have hk2 : k - osize l - 1 < count (RTree.node rv rl rr rp rnn rss) := by
          omega
        exact ihr _ _ f hsr hk2 (by omega)

theorem count_le_plug (path : List Step) (t : RTree) :
    count t ≤ count (plug path t) := by
  rw [count_plug]; omega

theorem offsetF_inspan (path : List Step) (t : RTree) (k fuel : Nat)
    (hs : sizeOk (plug path t)) (hk : k < count t) (hf : count t + 1 ≤ fuel) :
    offsetF fuel path t ((k : Int) - (count (lchild t) : Int)) =
      atLoc [] (plug path t) ((elemsBef path).length + k) ∧
      (elemsBef path).length + k < count (plug path t) := by
  have hst : sizeOk t := sizeOk_of_plug hs
  rw [offsetF_desc t path k fuel hst hk hf]
  obtain ⟨q, hq1, hq2, hq3, hq4⟩ := atLoc_sound t path k hst hk
  constructor
  · rw [hq1]
    have hc := atLoc_complete q.1 q.2 hq2 (by rw [hq3]; exact hs) []
    rw [hq4, List.append_nil, hq3] at hc
    rw [hc]
  · have h5 := @rankN_lt_count q.1 q.2 hq2
    rw [hq4, hq3] at h5
    exact h5

theorem offsetF_asc : ∀ (path : List Step) (t : RTree) (d : Int) (fuel : Nat),
    sizeOk (plug path t) → t ≠ RTree.nil →
    path.length + count (plug path t) + 1 ≤ fuel →
    offsetF fuel path t d =
      if 0 ≤ (rankN path t : Int) + d ∧
          (rankN path t : Int) + d < (count (plug path t) : Int) then
        atLoc [] (plug path t) ((rankN path t : Int) + d).toNat
      else none := by
  intro path
  induction path with
  | nil =>
    intro t d fuel hs ht hf
    by_cases hcond : 0 ≤ (rankN [] t : Int) + d ∧
        (rankN [] t : Int) + d < (count (plug [] t) : Int)
    · rw [if_pos hcond]
      obtain ⟨hc1, hc2⟩ := hcond
      have hb : (elemsBef ([] : List Step)).length = 0 := rfl
      have hrk : rankN [] t = count (lchild t) := by
        rw [rankN, hb]
        omega
      have hk : ((rankN [] t : Int) + d).toNat < count t := by
        have : count (plug [] t) = count t := rfl
        omega
      have hdd : d = ((((rankN [] t : Int) + d).toNat : Nat) : Int) -
          (count (lchild t) : Int) := by
        rw [hrk] at hc1 ⊢
        omega
      conv_lhs => rw [hdd]
      have h6 := (offsetF_inspan [] t (((rankN [] t : Int) + d).toNat) fuel hs
        hk (by have := count_le_plug [] t; omega)).1
      have h9 : (elemsBef ([] : List Step)).length +
          ((rankN [] t : Int) + d).toNat = ((rankN [] t : Int) + d).toNat := by
        rw [hb]
        omega
      rw [h9] at h6
      exact h6
    · rw [if_neg hcond]
      cases t with
      | nil => exact absurd rfl ht
      | node v l r p n s =>
        obtain ⟨hs1, hsl, hsr⟩ : sizeOk (RTree.node v l r p n s) := hs
        have hol : osize l = count l := osize_eq_count hsl
        have hor : osize r = count r := osize_eq_count hsr
        have hrk : rankN [] (RTree.node v l r p n s) = count l := by
          simp [rankN, elemsBef, lchild]
        have hcnt : count (plug [] (RTree.node v l r p n s)) =
            count l + 1 + count r := by
          rw [show plug [] (RTree.node v l r p n s) =
            RTree.node v l r p n s from rfl, count_node]
        rw [hrk, hcnt] at hcond
        obtain ⟨f, rfl⟩ : ∃ f, fuel = f + 1 := ⟨fuel - 1, by omega⟩
        rw [offsetF_node]
        rw [if_neg (fun hg => hcond ⟨by omega, by omega⟩),
          if_neg (fun hg => hcond ⟨by omega, by omega⟩),
          if_neg (fun hg => hcond ⟨by omega, by omega⟩)]
  | cons s rest ih =>
    intro t d fuel hs ht hf
    have hst : sizeOk t := sizeOk_of_plug hs
    by_cases hspan : ((elemsBef (s :: rest)).length : Int) ≤
          (rankN (s :: rest) t : Int) + d ∧
        (rankN (s :: rest) t : Int) + d <
          ((elemsBef (s :: rest)).length : Int) + count t
    · obtain ⟨hsp1, hsp2⟩ := hspan
      have hrk : rankN (s :: rest) t =
          (elemsBef (s :: rest)).length + count (lchild t) := rfl
      have hcl : count (lchild t) < count t := by
        cases t with
        | nil => exact absurd rfl ht
        | node v l r p n s2 =>
          show count l < count (RTree.node v l r p n s2)
          rw [count_node]; omega
      have hk : (((rankN (s :: rest) t : Int) + d -
          ((elemsBef (s :: rest)).length : Int))).toNat < count t := by
        omega
      have hdd : d = ((((rankN (s :: rest) t : Int) + d -
          ((elemsBef (s :: rest)).length : Int))).toNat : Int) -
          (count (lchild t) : Int) := by
        omega
      obtain ⟨h6, h7⟩ := offsetF_inspan (s :: rest) t _ fuel hs hk
        (by have := count_le_plug (s :: rest) t; omega)
      rw [if_pos ⟨by omega, by omega⟩]
      conv_lhs => rw [hdd]
      rw [h6]
      have h8 : (elemsBef (s :: rest)).length +
          (((rankN (s :: rest) t : Int) + d -
            ((elemsBef (s :: rest)).length : Int))).toNat =
          ((rankN (s :: rest) t : Int) + d).toNat := by
        omega
      rw [h8]
    · cases t with
      | nil => exact absurd rfl ht
      | node v l r p n s2 =>
        obtain ⟨hs1, hsl, hsr⟩ : sizeOk (RTree.node v l r p n s2) := hst
        have hol : osize l = count l := osize_eq_count hsl
        have hor : osize r = count r := osize_eq_count hsr
        have hrk : rankN (s :: rest) (RTree.node v l r p n s2) =
            (elemsBef (s :: rest)).length + count l := rfl
        have hct : count (RTree.node v l r p n s2) = count l + 1 + count r :=
          count_node v l r p n s2
        rw [hrk, hct] at hspan
        obtain ⟨f, rfl⟩ : ∃ f, fuel = f + 1 := ⟨fuel - 1, by omega⟩
        rw [offsetF_node]
        rw [if_neg (fun hg => hspan ⟨by omega, by omega⟩),
          if_neg (fun hg => hspan ⟨by omega, by omega⟩),
          if_neg (fun hg => hspan ⟨by omega, by omega⟩)]
        cases s with
        | fromL pv sib pp pn ps =>
          show offsetF f rest
            (RTree.node pv (RTree.node v l r p n s2) sib pp pn ps)
            (d - 1 - (osize r : Int)) = _
          have hplug : plug (Step.fromL pv sib pp pn ps :: rest)
              (RTree.node v l r p n s2) =
              plug rest (RTree.node pv (RTree.node v l r p n s2) sib pp pn ps) :=
            rfl
          have ih2 := ih (RTree.node pv (RTree.node v l r p n s2) sib pp pn ps)
            (d - 1 - (osize r : Int)) f (by rw [← hplug]; exact hs) (by simp)
            (by
              rw [← hplug]
              simp only [List.length_cons] at hf
              omega)
          rw [ih2, ← hplug]
          have hkey : (rankN rest
              (RTree.node pv (RTree.node v l r p n s2) sib pp pn ps) : Int) +
              (d - 1 - (osize r : Int)) =
              (rankN (Step.fromL pv sib pp pn ps :: rest)
                (RTree.node v l r p n s2) : Int) + d := by
            have e1 : rankN rest
                (RTree.node pv (RTree.node v l r p n s2) sib pp pn ps) =
                (elemsBef rest).length + count (RTree.node v l r p n s2) := rfl
            have e2 : elemsBef (Step.fromL pv sib pp pn ps :: rest) =
                elemsBef rest := rfl
            rw [e1, hrk, e2, hct, hor]
            push_cast
            ring
          rw [hkey]
        | fromR pv sib pp pn ps =>
          show offsetF f rest
            (RTree.node pv sib (RTree.node v l r p n s2) pp pn ps)
            (d + 1 + (osize l : Int)) = _
          have hplug : plug (Step.fromR pv sib pp pn ps :: rest)
              (RTree.node v l r p n s2) =
              plug rest (RTree.node pv sib (RTree.node v l r p n s2) pp pn ps) :=
            rfl
          have ih2 := ih (RTree.node pv sib (RTree.node v l r p n s2) pp pn ps)
            (d + 1 + (osize l : Int)) f (by rw [← hplug]; exact hs) (by simp)
            (by
              rw [← hplug]
              simp only [List.length_cons] at hf
              omega)
          rw [ih2, ← hplug]
          have hkey : (rankN rest
              (RTree.node pv sib (RTree.node v l r p n s2) pp pn ps) : Int) +
              (d + 1 + (osize l : Int)) =
              (rankN (Step.fromR pv sib pp pn ps :: rest)
                (RTree.node v l r p n s2) : Int) + d := by
            have e1 : rankN rest
                (RTree.node pv sib (RTree.node v l r p n s2) pp pn ps) =
                (elemsBef rest).length + count sib := rfl
            have e2 : (elemsBef (Step.fromR pv sib pp pn ps :: rest)).length =
                (elemsBef rest).length + (elems sib).length + 1 := by
              simp [elemsBef]
              omega
            rw [e1, hrk, e2, hol]
            have e3 : count sib = (elems sib).length := rfl
            rw [e3]
            push_cast
            ring
          rw [hkey]

/-- RbstNode::offset characterized: on a size-correct tree it reaches the
node whose rank is the current node's rank plus d, and is absent exactly
when that target rank falls outside the tree. -/
theorem offsetN_spec (path : List Step) (t : RTree) (d : Int)
    (hs : sizeOk (plug path t)) (ht : t ≠ RTree.nil) :
    offsetN path t d =
      if 0 ≤ (rankN path t : Int) + d ∧
          (rankN path t : Int) + d < (count (plug path t) : Int) then
        atLoc [] (plug path t) ((rankN path t : Int) + d).toNat
      else none := by
  rw [offsetN]
  exact offsetF_asc path t d _ hs ht (by omega)

/-! RbstNode::at as a plain node-returning function, its agreement with the
location version, and membership of results in the subtree. -/

theorem atN_nil (i : Nat) : atN .nil i = none := by rw [atN]

theorem atN_node (v : Int) (l r : RTree) (p : Option Nat) (n s i : Nat) :
    atN (.node v l r p n s) i =
      if i < osize l then atN l i
      else if i > osize l then atN r (i - osize l - 1)
      else some (.node v l r p n s) := by
  rw [atN]

theorem atN_eq_atLoc : ∀ (t : RTree) (path : List Step) (i : Nat),
    atN t i = (atLoc path t i).map Prod.snd := by
  intro t
  induction t with
  | nil => intro path i; rw [atN_nil, atLoc_nil]; rfl
  | node v l r p n s ihl ihr =>
    intro path i
    rw [atN_node, atLoc_node]
    by_cases h1 : i < osize l
    · rw [if_pos h1, if_pos h1]
      exact ihl _ i
    · rw [if_neg h1, if_neg h1]
      by_cases h2 : i > osize l
      · rw [if_pos h2, if_pos h2]
        exact ihr _ _
      · rw [if_neg h2, if_neg h2]
        rfl

theorem mem_nodes_self (v : Int) (l r : RTree) (p : Option Nat) (n s : Nat) :
    (RTree.node v l r p n s) ∈ nodes (.node v l r p n s) := by
  simp only [nodes]
  exact List.mem_append_right _ (List.mem_cons_self _ _)

theorem mem_nodes_left {u : RTree} {v : Int} {l r : RTree} {p : Option Nat}
    {n s : Nat} (h : u ∈ nodes l) : u ∈ nodes (.node v l r p n s) := by
  simp only [nodes]
  exact List.mem_append_left _ h

theorem mem_nodes_right {u : RTree} {v : Int} {l r : RTree} {p : Option Nat}
    {n s : Nat} (h : u ∈ nodes r) : u ∈ nodes (.node v l r p n s) := by
  simp only [nodes]
  exact List.mem_append_right _ (List.mem_cons_of_mem _ h)

theorem atLoc_mem_nodes : ∀ (t : RTree) (path : List Step) (i : Nat)
    (q : List Step × RTree), atLoc path t i = some q → q.2 ∈ nodes t := by
  intro t
  induction t with
  | nil =>
    intro path i q h
    rw [atLoc_nil] at h
    exact absurd h (by simp)
  | node v l r p n s ihl ihr =>
    intro path i q h
    rw [atLoc_node] at h
    by_cases h1 : i < osize l
    · rw [if_pos h1] at h
      exact mem_nodes_left (ihl _ _ _ h)
    · rw [if_neg h1] at h
      by_cases h2 : i > osize l
      · rw [if_pos h2] at h
        exact mem_nodes_right (ihr _ _ _ h)
      · rw [if_neg h2] at h
        cases h
        exact mem_nodes_self v l r p n s

theorem nodes_map_rootVal : ∀ t : RTree, (nodes t).map rootVal = vals t := by
  intro t
  induction t with
  | nil => rfl
  | node v l r p n s ihl ihr =>
    simp only [nodes, vals, elems, List.map_append, List.map_cons]
    rw [show vals l = (elems l).map Prod.snd from rfl] at ihl
    rw [show vals r = (elems r).map Prod.snd from rfl] at ihr
    rw [ihl, ihr]
    rfl

theorem mem_vals_of_mem_nodes {u t : RTree} (h : u ∈ nodes t) :
    rootVal u ∈ vals t := by
  rw [← nodes_map_rootVal]
  exact List.mem_map_of_mem rootVal h

theorem bst_sorted : ∀ t : RTree, bstOk t → (vals t).Pairwise (· ≤ ·) := by
  intro t
  induction t with
  | nil => intro _; simp [vals, elems]
  | node v l r p n s ihl ihr =>
    intro h
    obtain ⟨hbl, hbr, hl, hr⟩ := h
    rw [vals_node, List.pairwise_append]
    refine ⟨ihl hl, ?_, ?_⟩
    · rw [List.pairwise_cons]
      exact ⟨hbr, ihr hr⟩
    · intro x hx y hy
      rcases List.mem_cons.1 hy with rfl | hy
      · exact hbl x hx
      · exact le_trans (hbl x hx) (hbr y hy)

/-! Valued lookup: find, lower_bound and upper_bound. -/

theorem orR_some (x : RTree) (b : Option RTree) : orR (some x) b = some x := rfl

theorem orR_none (b : Option RTree) : orR none b = b := rfl

theorem orR_assoc (a b c : Option RTree) : orR (orR a b) c = orR a (orR b c) := by
  cases a <;> rfl

theorem findq_append (l1 l2 : List RTree) (p : RTree → Bool) :
    (l1 ++ l2).find? p = orR (l1.find? p) (l2.find? p) := by
  induction l1 with
  | nil => simp [orR]
  | cons a rest ih =>
    by_cases h : p a
    · rw [List.cons_append, List.find?_cons_of_pos _ h,
        List.find?_cons_of_pos _ h, orR_some]
    · rw [List.cons_append, List.find?_cons_of_neg _ h,
        List.find?_cons_of_neg _ h, ih]

theorem lower_bound_nil (k : Int) (res : Option RTree) :
    lower_bound .nil k res = res := by rw [lower_bound]

theorem lower_bound_node (k v : Int) (l r : RTree) (p : Option Nat) (n s : Nat)
    (res : Option RTree) :
    lower_bound (.node v l r p n s) k res =
      if v < k then lower_bound r k res
      else lower_bound l k (some (.node v l r p n s)) := by
  rw [lower_bound]

theorem upper_bound_nil (k : Int) (res : Option RTree) :
    upper_bound .nil k res = res := by rw [upper_bound]

theorem upper_bound_node (k v : Int) (l r : RTree) (p : Option Nat) (n s : Nat)
    (res : Option RTree) :
    upper_bound (.node v l r p n s) k res =
      if k < v then upper_bound l k (some (.node v l r p n s))
      else upper_bound r k res := by
  rw [upper_bound]

theorem lower_bound_find (k : Int) : ∀ (t : RTree) (res : Option RTree),
    bstOk t →
    lower_bound t k res =
      orR ((nodes t).find? (fun u => decide (k ≤ rootVal u))) res := by
  intro t
  induction t with
  | nil =>
    intro res _
    rw [lower_bound_nil]
    rfl
  | node v l r p n s ihl ihr =>
    intro res h
    obtain ⟨hbl, hbr, hl, hr⟩ := h
    rw [lower_bound_node]
    simp only [nodes]
    rw [findq_append]
    by_cases hv : v < k
    · rw [if_pos hv]
      have h1 : (nodes l).find? (fun u => decide (k ≤ rootVal u)) = none := by
        rw [List.find?_eq_none]
        intro u hu
        have := hbl (rootVal u) (mem_vals_of_mem_nodes hu)
        simp
        omega
      rw [h1, orR_none,
        List.find?_cons_of_neg _ (by simp [rootVal]; omega)]
      exact ihr res hr
    · rw [if_neg hv]
      rw [List.find?_cons_of_pos _ (by simp [rootVal]; omega)]
      rw [ihl _ hl, orR_assoc, orR_some]

theorem upper_bound_find (k : Int) : ∀ (t : RTree) (res : Option RTree),
    bstOk t →
    upper_bound t k res =
      orR ((nodes t).find? (fun u => decide (k < rootVal u))) res := by
  intro t
  induction t with
  | nil =>
    intro res _
    rw [upper_bound_nil]
    rfl
  | node v l r p n s ihl ihr =>
    intro res h
    obtain ⟨hbl, hbr, hl, hr⟩ := h
    rw [upper_bound_node]
    simp only [nodes]
    rw [findq_append]
    by_cases hv : k < v
    · rw [if_pos hv]
      rw [List.find?_cons_of_pos _ (by simp [rootVal]; omega)]
      rw [ihl _ hl, orR_assoc, orR_some]
    · rw [if_neg hv]
      have h1 : (nodes l).find? (fun u => decide (k < rootVal u)) = none := by
        rw [List.find?_eq_none]
        intro u hu
        have := hbl (rootVal u) (mem_vals_of_mem_nodes hu)
        simp
        omega
      rw [h1, orR_none,
        List.find?_cons_of_neg _ (by simp [rootVal]; omega)]
      exact ihr res hr

theorem find_nil (k : Int) (res : Option RTree) : find .nil k res = res := by
  rw [find]

theorem find_node (k v : Int) (l r : RTree) (p : Option Nat) (n s : Nat)
    (res : Option RTree) :
    find (.node v l r p n s) k res =
      if k < v then find l k res
      else if v < k then find r k res
      else some (.node v l r p n s) := by
  rw [find]

theorem find_some (k : Int) : ∀ (t : RTree) (u : RTree),
    find t k none = some u → rootVal u = k ∧ u ∈ nodes t := by
  intro t
  induction t with
  | nil =>
    intro u h
    rw [find_nil] at h
    exact absurd h (by simp)
  | node v l r p n s ihl ihr =>
    intro u h
    rw [find_node] at h
    by_cases h1 : k < v
    · rw [if_pos h1] at h
      obtain ⟨a, b⟩ := ihl u h
      exact ⟨a, mem_nodes_left b⟩
    · rw [if_neg h1] at h
      by_cases h2 : v < k
      · rw [if_pos h2] at h
        obtain ⟨a, b⟩ := ihr u h
        exact ⟨a, mem_nodes_right b⟩
      · rw [if_neg h2] at h
        cases h
        exact ⟨by show v = k; omega, mem_nodes_self v l r p n s⟩

theorem find_none_iff (k : Int) : ∀ t : RTree, bstOk t →
    (find t k none = none ↔ k ∉ vals t) := by
  intro t
  induction t with
  | nil =>
    intro _
    rw [find_nil]
    simp [vals, elems]
  | node v l r p n s ihl ihr =>
    intro h
    obtain ⟨hbl, hbr, hl, hr⟩ := h
    rw [find_node, vals_node]
    by_cases h1 : k < v
    · rw [if_pos h1, ihl hl]
      constructor
      · intro ha hb
        rcases List.mem_append.1 hb with hb | hb
        · exact ha hb
        · rcases List.mem_cons.1 hb with rfl | hb
          · omega
          · have := hbr k hb
            omega
      · intro ha hb
        exact ha (List.mem_append_left _ hb)
    · rw [if_neg h1]
      by_cases h2 : v < k
      · rw [if_pos h2, ihr hr]
        constructor
        · intro ha hb
          rcases List.mem_append.1 hb with hb | hb
          · have := hbl k hb
            omega
          · rcases List.mem_cons.1 hb with rfl | hb
            · omega
            · exact ha hb
        · intro ha hb
          exact ha (List.mem_append_right _ (List.mem_cons_of_mem _ hb))
      · rw [if_neg h2]
        have hkv : k = v := by omega
        subst hkv
        simp

theorem findLoc_nil (path : List Step) (k : Int) :
    findLoc path .nil k = none := by rw [findLoc]

theorem findLoc_node (path : List Step) (k v : Int) (l r : RTree)
    (p : Option Nat) (n s : Nat) :
    findLoc path (.node v l r p n s) k =
      if k < v then findLoc (.fromL v r p n s :: path) l k
      else if v < k then findLoc (.fromR v l p n s :: path) r k
      else some (path, .node v l r p n s) := by
  rw [findLoc]

theorem findLoc_some (k : Int) : ∀ (t : RTree) (path : List Step)
    (q : List Step × RTree), findLoc path t k = some q →
    plug q.1 q.2 = plug path t ∧ q.2 ≠ RTree.nil ∧ rootVal q.2 = k := by
  intro t
  induction t with
  | nil =>
    intro path q h
    rw [findLoc_nil] at h
    exact absurd h (by simp)
  | node v l r p n s ihl ihr =>
    intro path q h
    rw [findLoc_node] at h
    by_cases h1 : k < v
    · rw [if_pos h1] at h
      exact ihl _ _ h
    · rw [if_neg h1] at h
      by_cases h2 : v < k
      · rw [if_pos h2] at h
        exact ihr _ _ h
      · rw [if_neg h2] at h
        cases h
        exact ⟨rfl, by simp, by show v = k; omega⟩

theorem findLoc_none_iff (k : Int) : ∀ (t : RTree) (path : List Step),
    bstOk t → (findLoc path t k = none ↔ k ∉ vals t) := by
  intro t
  induction t with
  | nil =>
    intro path _
    rw [findLoc_nil]
    simp [vals, elems]
  | node v l r p n s ihl ihr =>
    intro path h
    obtain ⟨hbl, hbr, hl, hr⟩ := h
    rw [findLoc_node, vals_node]
    by_cases h1 : k < v
    · rw [if_pos h1, ihl _ hl]
      constructor
      · intro ha hb
        rcases List.mem_append.1 hb with hb | hb
        · exact ha hb
        · rcases List.mem_cons.1 hb with rfl | hb
          · omega
          · have := hbr k hb
            omega
      · intro ha hb
        exact ha (List.mem_append_left _ hb)
    · rw [if_neg h1]
      by_cases h2 : v < k
      · rw [if_pos h2, ihr _ hr]
        constructor
        · intro ha hb
          rcases List.mem_append.1 hb with hb | hb
          · have := hbl k hb
            omega
          · rcases List.mem_cons.1 hb with rfl | hb
            · omega
            · exact ha hb
        · intro ha hb
          exact ha (List.mem_append_right _ (List.mem_cons_of_mem _ hb))
      · rw [if_neg h2]
        have hkv : k = v := by omega
        subst hkv
        simp

theorem findq_congr : ∀ (l : List RTree) (p q : RTree → Bool),
    (∀ x ∈ l, p x = q x) → l.find? p = l.find? q := by
  intro l
  induction l with
  | nil => intro p q _; rfl
  | cons a rest ih =>
    intro p q h
    have ha := h a (List.mem_cons_self _ _)
    by_cases hp : p a
    · rw [List.find?_cons_of_pos _ hp, List.find?_cons_of_pos _ (ha ▸ hp)]
    · rw [List.find?_cons_of_neg _ hp,
        List.find?_cons_of_neg _ (by rw [← ha]; exact hp),
        ih _ _ (fun x hx => h x (List.mem_cons_of_mem _ hx))]

theorem findq_first_ge {k : Int} : ∀ us : List RTree,
    ((us.map rootVal).Pairwise (· ≤ ·)) → k ∈ us.map rootVal →
    ∃ u, us.find? (fun u => decide (k ≤ rootVal u)) = some u ∧
      rootVal u = k := by
  intro us
  induction us with
  | nil => intro _ h; simp at h
  | cons a rest ih =>
    intro hs hk
    rw [List.map_cons, List.pairwise_cons] at hs
    obtain ⟨hs1, hs2⟩ := hs
    by_cases ha : k ≤ rootVal a
    · refine ⟨a, List.find?_cons_of_pos _ (by simp [ha]), ?_⟩
      rcases List.mem_cons.1 hk with he | he
      · omega
      · have := hs1 k he
        omega
    · rw [List.find?_cons_of_neg _ (by simp; omega)]
      refine ih hs2 ?_
      rcases List.mem_cons.1 hk with he | he
      · omega
      · exact he

theorem lb_ub_iff (k : Int) (t : RTree) (hb : bstOk t) :
    lower_bound t k none = upper_bound t k none ↔ k ∉ vals t := by
  rw [lower_bound_find k t none hb, upper_bound_find k t none hb]
  constructor
  · intro h hk
    obtain ⟨u, hu1, hu2⟩ := findq_first_ge (nodes t)
      (by rw [nodes_map_rootVal]; exact bst_sorted t hb)
      (by rw [nodes_map_rootVal]; exact hk)
    rw [hu1, orR_some] at h
    cases hub : (nodes t).find? (fun u => decide (k < rootVal u)) with
    | none =>
      rw [hub, orR_none] at h
      exact absurd h (by simp)
    | some w =>
      rw [hub, orR_some] at h
      cases h
      have := List.find?_some hub
      simp at this
      omega
  · intro hk
    have hagree : ∀ u ∈ nodes t,
        (fun u => decide (k ≤ rootVal u)) u =
        (fun u => decide (k < rootVal u)) u := by
      intro u hu
      have hne : rootVal u ≠ k := fun he => hk (he ▸ mem_vals_of_mem_nodes hu)
      simp
      omega
    rw [findq_congr _ _ _ hagree]

/-! Adapter-level behaviour of RbstSet::insert and RbstSet::erase(key). -/

theorem rng_next_lt (rng : Rng) (bound : Nat) (h : 0 < bound) :
    (Rng.next rng bound).1 < bound := Nat.mod_lt _ h

theorem setInsert_spec {st : SetSt} {v : Int} (hb : bstOk st.root) :
    ((setInsert st v).1.2 = false ↔ v ∈ vals st.root) ∧
    ((setInsert st v).1.2 = false →
      (setInsert st v).2 = st ∧
      ∃ u ∈ nodes st.root, rootVal u = v ∧ (setInsert st v).1.1 = rootId u) := by
  cases hf : find st.root v none with
  | none =>
    have habs : v ∉ vals st.root := (find_none_iff v st.root hb).1 hf
    constructor
    · simp [setInsert, hf]
      exact habs
    · intro h
      rw [show (setInsert st v).1.2 = true by simp [setInsert, hf]] at h
      exact absurd h (by simp)
  | some u =>
    obtain ⟨hval, hmem⟩ := find_some v st.root u hf
    constructor
    · simp [setInsert, hf]
      exact hval ▸ mem_vals_of_mem_nodes hmem
    · intro _
      refine ⟨by simp [setInsert, hf], u, hmem, hval, by simp [setInsert, hf]⟩

theorem setEraseKey_absent {st : SetSt} {k : Int} (hb : bstOk st.root)
    (hk : k ∉ vals st.root) : setEraseKey st k = (0, st) := by
  have h := (findLoc_none_iff k st.root [] hb).2 hk
  simp [setEraseKey, h]

theorem setEraseKey_present {st : SetSt} {k : Int}
    (hInv : Inv st.root) (hnd : (vals st.root).Nodup) (hk : k ∈ vals st.root) :
    (setEraseKey st k).1 = 1 ∧
    Inv (setEraseKey st k).2.root ∧
    setFind (setEraseKey st k).2 k = none := by
  obtain ⟨hs, hp, hb⟩ := hInv
  cases hfl : findLoc [] st.root k with
  | none => exact absurd hk (by rwa [findLoc_none_iff k st.root [] hb] at hfl)
  | some q =>
    obtain ⟨path, u⟩ := q
    obtain ⟨hplug0, hne, hval⟩ := findLoc_some k st.root [] (path, u) hfl
    have hplug : plug path u = st.root := hplug0
    cases u with
    | nil => exact absurd rfl hne
    | node uv ul ur up un us =>
      have huv : uv = k := hval
      subst huv
      rw [← hplug] at hs hp hb hnd hk
      obtain ⟨⟨hinv, _⟩, helems⟩ := erase_inv path uv ul ur up un us st.rng
        hs hp hb
      have hres : setEraseKey st uv =
          (1, ⟨(erase path (.node uv ul ur up un us) st.rng).1,
            (erase path (.node uv ul ur up un us) st.rng).2,
            st.counter, st.sentSz - 1⟩) := by
        simp [setEraseKey, hfl]
      refine ⟨by rw [hres], by rw [hres]; exact hinv, ?_⟩
      rw [hres]
      show find (erase path (.node uv ul ur up un us) st.rng).1 uv none = none
      rw [find_none_iff uv _ hinv.2.2]
      have hv1 : vals (plug path (.node uv ul ur up un us)) =
          (elemsBef path).map Prod.snd ++
            (vals ul ++ uv :: vals ur) ++ (elemsAft path).map Prod.snd := by
        rw [vals, elems_plug]
        simp [vals, elems]
      have hv2 : vals (erase path (.node uv ul ur up un us) st.rng).1 =
          (elemsBef path).map Prod.snd ++
            (vals ul ++ vals ur) ++ (elemsAft path).map Prod.snd := by
        rw [vals, helems]
        simp [vals]
      have hcnt : (vals (plug path (.node uv ul ur up un us))).count uv ≤ 1 :=
        List.nodup_iff_count_le_one.1 hnd uv
      rw [hv1] at hcnt
      rw [hv2]
      have hcz : (((elemsBef path).map Prod.snd ++
          (vals ul ++ vals ur) ++
            (elemsAft path).map Prod.snd)).count uv = 0 := by
        simp only [List.count_append, List.count_cons] at hcnt ⊢
        simp at hcnt
        omega
      intro hmem
      rw [← List.count_pos_iff] at hmem
      omega

/-! Claim theorems. -/

/-- C1: after every sequence of insert and erase operations starting from
the empty tree (with any raw RNG stream and any choice of erased ranks),
every node reachable from the root satisfies I1 (its stored size equals 1
plus the stored sizes of its children, an absent child contributing 0), I2
(every child's parent pointer refers to the node holding it as a child) and
I3 (BST ordering of the values under the active std::less ordering). -/
theorem claim_C1_invariants (f : Nat → Nat) (ops : List Op) :
    sizeOk (runOps f ops).root ∧ parOk (runOps f ops).root ∧
    bstOk (runOps f ops).root :=
  (runOps_inv f ops).1

/-- C2: RbstNode::insert of a new node into a subtree: at an existing node
one uniform draw in [0, size(node) + 1) is made; draw 0 splits the node's
subtree by the new key, the halves becoming the new node's left and right
children with the new node the local root; otherwise insertion recurses
into the child chosen by the comparison and the node's stored size is
incremented; inserting into an absent subtree yields a size-1 subtree.  In
every case the elements afterwards are the old ones plus the new node. -/
theorem claim_C2_insert (nv : Int) (newId : Nat) (parent : Option Nat)
    (rng : Rng) :
    (insert nv newId parent RTree.nil rng =
      (RTree.node nv RTree.nil RTree.nil parent newId 1, rng)) ∧
    (∀ (v : Int) (l r : RTree) (tp : Option Nat) (tn ts : Nat),
      (Rng.next rng (1 + ts)).1 < 1 + ts ∧
      ((Rng.next rng (1 + ts)).1 = 0 →
        insert nv newId parent (.node v l r tp tn ts) rng =
          (.node nv (split nv newId newId (.node v l r tp tn ts)).1
            (split nv newId newId (.node v l r tp tn ts)).2 parent newId
            (1 + osize (split nv newId newId (.node v l r tp tn ts)).1 +
              osize (split nv newId newId (.node v l r tp tn ts)).2),
          (Rng.next rng (1 + ts)).2)) ∧
      ((Rng.next rng (1 + ts)).1 ≠ 0 → nv < v →
        insert nv newId parent (.node v l r tp tn ts) rng =
          (.node v (insert nv newId (some tn) l (Rng.next rng (1 + ts)).2).1 r
            tp tn (ts + 1),
          (insert nv newId (some tn) l (Rng.next rng (1 + ts)).2).2)) ∧
      ((Rng.next rng (1 + ts)).1 ≠ 0 → ¬ nv < v →
        insert nv newId parent (.node v l r tp tn ts) rng =
          (.node v l (insert nv newId (some tn) r (Rng.next rng (1 + ts)).2).1
            tp tn (ts + 1),
          (insert nv newId (some tn) r (Rng.next rng (1 + ts)).2).2))) ∧
    (∀ t : RTree,
      (elems (insert nv newId parent t rng).1).Perm ((newId, nv) :: elems t)) ∧
    (∀ t : RTree, sizeOk t →
      osize (insert nv newId parent t rng).1 = osize t + 1) := by
  refine ⟨insert_nil nv newId parent rng, ?_, ?_, ?_⟩
  · intro v l r tp tn ts
    exact ⟨rng_next_lt rng (1 + ts) (by omega),
      fun h0 => insert_node_hit newId parent h0,
      fun h0 hv => insert_node_left newId parent h0 hv,
      fun h0 hv => insert_node_right newId parent h0 hv⟩
  · intro t
    exact insert_elems nv newId t parent rng
  · intro t ht
    exact (insert_sizeOk nv newId t parent rng ht).2

/-- C2 witness: a concrete recursive-insert step with a nonzero draw. -/
theorem claim_C2_insert_witness :
    (Rng.next (Rng.mk (fun i => i + 1) 0) (1 + 1)).1 ≠ 0 ∧ (5 : Int) < 9 ∧
    insert 5 7 none (RTree.node 9 RTree.nil RTree.nil none 3 1)
        (Rng.mk (fun i => i + 1) 0) =
      (RTree.node 9 (insert 5 7 (some 3) RTree.nil
          (Rng.next (Rng.mk (fun i => i + 1) 0) (1 + 1)).2).1 RTree.nil none 3
          (1 + 1),
        (insert 5 7 (some 3) RTree.nil
          (Rng.next (Rng.mk (fun i => i + 1) 0) (1 + 1)).2).2) :=
  ⟨by decide, by decide,
    ((claim_C2_insert 5 7 none ⟨fun i => i + 1, 0⟩).2.1 9 RTree.nil RTree.nil
      none 3 1).2.2.1 (by decide) (by decide)⟩

/-- C3: RbstNode::join of two order-compatible subtrees returns a single
ordered subtree holding exactly the union of their elements; the new root
is chosen by a uniform draw in [0, size(lesser) + size(greater)): a draw
below size(lesser) makes lesser's root the root and joins greater into its
right child, otherwise greater's root wins symmetrically; an absent
argument returns the other unchanged. -/
theorem claim_C3_join (rng : Rng) :
    (∀ g : RTree, join RTree.nil g rng = (g, rng)) ∧
    (∀ l : RTree, join l RTree.nil rng = (l, rng)) ∧
    (∀ a b : RTree, elems (join a b rng).1 = elems a ++ elems b) ∧
    (∀ a b : RTree, bstOk a → bstOk b →
      (∀ x ∈ vals a, ∀ y ∈ vals b, x ≤ y) → bstOk (join a b rng).1) ∧
    (∀ (lv : Int) (ll lr : RTree) (lp : Option Nat) (ln ls : Nat)
        (gv : Int) (gl gr : RTree) (gp : Option Nat) (gn gs : Nat),
      (0 < ls + gs → (Rng.next rng (ls + gs)).1 < ls + gs) ∧
      ((Rng.next rng (ls + gs)).1 < ls →
        join (.node lv ll lr lp ln ls) (.node gv gl gr gp gn gs) rng =
          (.node lv ll (setPar (some ln)
              (join lr (.node gv gl gr gp gn gs)
                (Rng.next rng (ls + gs)).2).1) lp ln (ls + gs),
            (join lr (.node gv gl gr gp gn gs)
              (Rng.next rng (ls + gs)).2).2)) ∧
      (¬ (Rng.next rng (ls + gs)).1 < ls →
        join (.node lv ll lr lp ln ls) (.node gv gl gr gp gn gs) rng =
          (.node gv (setPar (some gn)
              (join (.node lv ll lr lp ln ls) gl
                (Rng.next rng (ls + gs)).2).1) gr gp gn (ls + gs),
            (join (.node lv ll lr lp ln ls) gl
              (Rng.next rng (ls + gs)).2).2))) := by
  refine ⟨fun g => join_nil g rng, fun l => join_nil_r l rng,
    fun a b => join_elems a b rng, fun a b => join_bst a b rng, ?_⟩
  intro lv ll lr lp ln ls gv gl gr gp gn gs
  exact ⟨fun h => rng_next_lt rng _ h, fun h => join_node_lt h,
    fun h => join_node_ge h⟩

/-- C3 witness: ordering preserved when joining two concrete singleton
subtrees. -/
theorem claim_C3_join_witness :
    bstOk (RTree.node 1 RTree.nil RTree.nil none 1 1) ∧
    bstOk (RTree.node 2 RTree.nil RTree.nil none 2 1) ∧
    (∀ x ∈ vals (RTree.node 1 RTree.nil RTree.nil none 1 1),
      ∀ y ∈ vals (RTree.node 2 RTree.nil RTree.nil none 2 1), x ≤ y) ∧
    bstOk (join (RTree.node 1 RTree.nil RTree.nil none 1 1)
      (RTree.node 2 RTree.nil RTree.nil none 2 1)
      (Rng.mk (fun i => i + 1) 0)).1 :=
  ⟨by decide, by decide, by decide,
    (claim_C3_join ⟨fun i => i + 1, 0⟩).2.2.2.1
      (RTree.node 1 RTree.nil RTree.nil none 1 1)
      (RTree.node 2 RTree.nil RTree.nil none 2 1)
      (by decide) (by decide) (by decide)⟩

/-- C4: RbstNode::erase on a located node replaces it by the join of its
children, re-parents the join result to the node's former parent and puts
it in the corresponding child slot, decrements the stored size of every
ancestor on the path up to the root, and returns the new root of the whole
tree (the join result itself when the node had no parent); the elements
afterwards are exactly the old ones minus the erased node, the invariants
still hold, the node count has dropped by one, and the erased node itself
ends with cleared links and size 1. -/
theorem claim_C4_erase (path : List Step) (v : Int) (l r : RTree)
    (tp : Option Nat) (tn ts : Nat) (rng : Rng)
    (h : Inv (plug path (.node v l r tp tn ts))) :
    (erase path (.node v l r tp tn ts) rng).1 =
      decUp path (setPar tp (join l r rng).1) ∧
    (path = [] → (erase path (.node v l r tp tn ts) rng).1 =
      setPar tp (join l r rng).1) ∧
    elems (erase path (.node v l r tp tn ts) rng).1 =
      elemsBef path ++ (elems l ++ elems r) ++ elemsAft path ∧
    Inv (erase path (.node v l r tp tn ts) rng).1 ∧
    count (erase path (.node v l r tp tn ts) rng).1 =
      count (plug path (.node v l r tp tn ts)) - 1 ∧
    eraseCleared (.node v l r tp tn ts) =
      RTree.node v RTree.nil RTree.nil none tn 1 ∧
    osize (eraseCleared (.node v l r tp tn ts)) = 1 := by
  obtain ⟨hs, hp, hb⟩ := h
  obtain ⟨⟨hinv, _⟩, helems⟩ := erase_inv path v l r tp tn ts rng hs hp hb
  have hdec := erase_eq_decUp path v l r tp tn ts rng
  refine ⟨?_, ?_, helems, hinv, ?_, ?_, ?_⟩
  · rw [hdec]
  · intro hpe
    subst hpe
    rw [hdec]
    rw [decUp]
  · have e1 : count (erase path (.node v l r tp tn ts) rng).1 =
        (elemsBef path ++ (elems l ++ elems r) ++ elemsAft path).length := by
      rw [count, helems]
    rw [e1, count_plug, count_node]
    simp only [count, List.length_append]
    omega
  · rw [eraseCleared]
  · rw [eraseCleared]
    rfl

/-- C4 witness: erasing a left child in a concrete two-node tree. -/
theorem claim_C4_erase_witness :
    Inv (plug [Step.fromL 5 RTree.nil none 1 2]
      (RTree.node 3 RTree.nil RTree.nil (some 1) 2 1)) ∧
    Inv (erase [Step.fromL 5 RTree.nil none 1 2]
      (RTree.node 3 RTree.nil RTree.nil (some 1) 2 1)
      (Rng.mk (fun i => i + 1) 0)).1 :=
  ⟨by decide,
    (claim_C4_erase [Step.fromL 5 RTree.nil none 1 2] 3 RTree.nil RTree.nil
      (some 1) 2 1 ⟨fun i => i + 1, 0⟩ (by decide)).2.2.2.1⟩

/-- C5: on a well-formed tree, RbstNode::offset with argument 0 returns the
node itself, with 1 it agrees with RbstNode::next, with -1 it agrees with
RbstNode::previous, and offset(d) is absent exactly when the target rank
index() + d falls outside the tree's ranks. -/
theorem claim_C5_offset (path : List Step) (t : RTree)
    (h : Inv (plug path t)) (ht : t ≠ RTree.nil) :
    offsetN path t 0 = some (path, t) ∧
    offsetN path t 1 = nextN path t ∧
    offsetN path t (-1) = prevN path t ∧
    (∀ d : Int, offsetN path t d = none ↔
      ((indexN path t : Int) + d < 0 ∨
        (count (plug path t) : Int) ≤ (indexN path t : Int) + d)) := by
  obtain ⟨hs, hp, hb⟩ := h
  have hrlt : rankN path t < count (plug path t) := rankN_lt_count ht
  have hcomp : atLoc [] (plug path t) (rankN path t) = some (path, t) := by
    have h0 := atLoc_complete path t ht hs []
    rwa [List.append_nil] at h0
  refine ⟨?_, ?_, ?_, ?_⟩
  · rw [offsetN_spec path t 0 hs ht, if_pos (by constructor <;> omega)]
    have h1 : ((rankN path t : Int) + 0).toNat = rankN path t := by omega
    rw [h1, hcomp]
  · cases t with
    | nil => exact absurd rfl ht
    | node v l r p n s =>
      rw [offsetN_spec path _ 1 hs (by simp), nextN_spec path v l r p n s hs]
      by_cases hc : rankN path (RTree.node v l r p n s) + 1 <
          count (plug path (RTree.node v l r p n s))
      · rw [if_pos (by constructor <;> omega), if_pos hc]
        have h1 : ((rankN path (RTree.node v l r p n s) : Int) + 1).toNat =
            rankN path (RTree.node v l r p n s) + 1 := by omega
        rw [h1]
      · rw [if_neg (by omega), if_neg hc]
  · cases t with
    | nil => exact absurd rfl ht
    | node v l r p n s =>
      rw [offsetN_spec path _ (-1) hs (by simp), prevN_spec path v l r p n s hs]
      by_cases hc : 0 < rankN path (RTree.node v l r p n s)
      · rw [if_pos (by constructor <;> omega), if_pos hc]
        have h1 : ((rankN path (RTree.node v l r p n s) : Int) + (-1)).toNat =
            rankN path (RTree.node v l r p n s) - 1 := by omega
        rw [h1]
      · rw [if_neg (by omega), if_neg hc]
  · intro d
    rw [offsetN_spec path t d hs ht, indexN_eq_rankN hs]
    by_cases hc : 0 ≤ (rankN path t : Int) + d ∧
        (rankN path t : Int) + d < (count (plug path t) : Int)
    · rw [if_pos hc]
      obtain ⟨q, hq1, _, _, _⟩ := atLoc_sound (plug path t) []
        ((rankN path t : Int) + d).toNat hs (by omega)
      rw [hq1]
      constructor
      · intro he
        exact absurd he (by simp)
      · intro he
        omega
    · rw [if_neg hc]
      constructor
      · intro _
        by_contra hno
        push_neg at hno
        exact hc ⟨by omega, by omega⟩
      · intro _
        rfl

/-- C5 witness: the root of a concrete two-node tree. -/
theorem claim_C5_offset_witness :
    Inv (plug ([] : List Step)
      (RTree.node 5 (RTree.node 3 RTree.nil RTree.nil (some 1) 2 1)
        RTree.nil none 1 2)) ∧
    (RTree.node 5 (RTree.node 3 RTree.nil RTree.nil (some 1) 2 1)
      RTree.nil none 1 2) ≠ RTree.nil ∧
    offsetN [] (RTree.node 5 (RTree.node 3 RTree.nil RTree.nil (some 1) 2 1)
      RTree.nil none 1 2) 0 =
      some ([], RTree.node 5 (RTree.node 3 RTree.nil RTree.nil (some 1) 2 1)
        RTree.nil none 1 2) :=
  ⟨by decide, by decide,
    (claim_C5_offset []
      (RTree.node 5 (RTree.node 3 RTree.nil RTree.nil (some 1) 2 1)
        RTree.nil none 1 2) (by decide) (by decide)).1⟩

/-- C6: rank consistency on a well-formed tree: at(i) reaches a node whose
index() is i for every valid rank i; conversely at(index()) of a node in
the tree is that node; the iterator difference of two positions of the
same tree equals the difference of their ranks; and the plain node-valued
at agrees with the location-tracking descent. -/
theorem claim_C6_rank (root : RTree) (h : Inv root) :
    (∀ i, i < count root →
      ∃ q : List Step × RTree, atLoc [] root i = some q ∧
        indexN q.1 q.2 = i) ∧
    (∀ (path : List Step) (t : RTree), plug path t = root → t ≠ RTree.nil →
      atLoc [] root (indexN path t) = some (path, t)) ∧
    (∀ p1 p2 : List Step × RTree, plug p1.1 p1.2 = root →
      plug p2.1 p2.2 = root → p1.2 ≠ RTree.nil → p2.2 ≠ RTree.nil →
      iterDiff p1 p2 = (rankN p1.1 p1.2 : Int) - (rankN p2.1 p2.2 : Int)) ∧
    (∀ i, atN root i = (atLoc [] root i).map Prod.snd) := by
  refine ⟨?_, ?_, ?_, ?_⟩
  · intro i hi
    obtain ⟨q, hq1, hq2, hq3, hq4⟩ := atLoc_sound root [] i h.1 hi
    refine ⟨q, hq1, ?_⟩
    have h5 : sizeOk (plug q.1 q.2) := by rw [hq3]; exact h.1
    rw [indexN_eq_rankN h5, hq4]
    simp [elemsBef]
  · intro path t hplug ht
    have hs2 : sizeOk (plug path t) := by rw [hplug]; exact h.1
    have h0 := atLoc_complete path t ht hs2 []
    rw [List.append_nil] at h0
    rw [indexN_eq_rankN hs2, ← hplug]
    exact h0
  · intro p1 p2 h1p h2p h1n h2n
    have hs1 : sizeOk (plug p1.1 p1.2) := by rw [h1p]; exact h.1
    have hs2 : sizeOk (plug p2.1 p2.2) := by rw [h2p]; exact h.1
    show (indexN p1.1 p1.2 : Int) - (indexN p2.1 p2.2 : Int) = _
    rw [indexN_eq_rankN hs1, indexN_eq_rankN hs2]
  · intro i
    exact atN_eq_atLoc root [] i

/-- C6 witness: at and index agree on a concrete two-node tree. -/
theorem claim_C6_rank_witness :
    Inv (RTree.node 5 (RTree.node 3 RTree.nil RTree.nil (some 1) 2 1)
      RTree.nil none 1 2) ∧
    (1 < count (RTree.node 5 (RTree.node 3 RTree.nil RTree.nil (some 1) 2 1)
      RTree.nil none 1 2)) ∧
    ∃ q : List Step × RTree,
      atLoc [] (RTree.node 5 (RTree.node 3 RTree.nil RTree.nil (some 1) 2 1)
        RTree.nil none 1 2) 1 = some q ∧ indexN q.1 q.2 = 1 :=
  ⟨by decide, by decide,
    (claim_C6_rank (RTree.node 5
      (RTree.node 3 RTree.nil RTree.nil (some 1) 2 1) RTree.nil none 1 2)
      (by decide)).1 1 (by decide)⟩

/-- C7: on a tree ordered by the comparator used to build it, lower_bound
returns the leftmost node whose value is not less than the key (the
supplied fallback when every value is less), upper_bound the leftmost node
strictly greater (the fallback when none is), and the two coincide exactly
when no element equal to the key is present. -/
theorem claim_C7_bounds (t : RTree) (k : Int) (h : bstOk t) :
    (∀ res, lower_bound t k res =
      orR ((nodes t).find? (fun u => decide (k ≤ rootVal u))) res) ∧
    (∀ res, upper_bound t k res =
      orR ((nodes t).find? (fun u => decide (k < rootVal u))) res) ∧
    (lower_bound t k none = upper_bound t k none ↔ k ∉ vals t) := by
  exact ⟨fun res => lower_bound_find k t res h,
    fun res => upper_bound_find k t res h, lb_ub_iff k t h⟩

/-- C7 witness: bounds on a concrete two-node tree, key present and absent. -/
theorem claim_C7_bounds_witness :
    bstOk (RTree.node 5 (RTree.node 3 RTree.nil RTree.nil (some 1) 2 1)
      RTree.nil none 1 2) ∧
    (lower_bound (RTree.node 5 (RTree.node 3 RTree.nil RTree.nil (some 1) 2 1)
        RTree.nil none 1 2) 4 none =
      upper_bound (RTree.node 5 (RTree.node 3 RTree.nil RTree.nil (some 1) 2 1)
        RTree.nil none 1 2) 4 none ↔
      (4 : Int) ∉ vals (RTree.node 5
        (RTree.node 3 RTree.nil RTree.nil (some 1) 2 1) RTree.nil none 1 2)) :=
  ⟨by decide,
    (claim_C7_bounds (RTree.node 5
      (RTree.node 3 RTree.nil RTree.nil (some 1) 2 1) RTree.nil none 1 2) 4
      (by decide)).2.2⟩

/-- C8: RbstSet::insert(key) reports inserted = false exactly when an equal
key exists, in which case the container is unchanged and the returned
position is the existing element's; RbstSet::erase(key) on an absent key
returns 0 and leaves the container unchanged, and on a present key returns
1, after which find(key) is end(). -/
theorem claim_C8_set (st : SetSt) (k : Int) (h1 : Inv st.root)
    (h2 : (vals st.root).Nodup) :
    ((setInsert st k).1.2 = false ↔ k ∈ vals st.root) ∧
    ((setInsert st k).1.2 = false →
      (setInsert st k).2 = st ∧
      ∃ u ∈ nodes st.root, rootVal u = k ∧ (setInsert st k).1.1 = rootId u) ∧
    (k ∉ vals st.root → setEraseKey st k = (0, st)) ∧
    (k ∈ vals st.root → (setEraseKey st k).1 = 1 ∧
      setFind (setEraseKey st k).2 k = none) := by
  obtain ⟨hsp1, hsp2⟩ := @setInsert_spec st k h1.2.2
  refine ⟨hsp1, hsp2, fun hk => setEraseKey_absent h1.2.2 hk, fun hk => ?_⟩
  obtain ⟨e1, _, e3⟩ := setEraseKey_present h1 h2 hk
  exact ⟨e1, e3⟩

/-- C8 witness: a concrete one-element set, erasing an absent key. -/
theorem claim_C8_set_witness :
    Inv (SetSt.mk (RTree.node 5 RTree.nil RTree.nil (some 0) 1 1)
      (Rng.mk (fun i => i + 1) 0) 2 2).root ∧
    (vals (SetSt.mk (RTree.node 5 RTree.nil RTree.nil (some 0) 1 1)
      (Rng.mk (fun i => i + 1) 0) 2 2).root).Nodup ∧
    (4 : Int) ∉ vals (SetSt.mk (RTree.node 5 RTree.nil RTree.nil (some 0) 1 1)
      (Rng.mk (fun i => i + 1) 0) 2 2).root ∧
    setEraseKey (SetSt.mk (RTree.node 5 RTree.nil RTree.nil (some 0) 1 1)
      (Rng.mk (fun i => i + 1) 0) 2 2) 4 =
      (0, SetSt.mk (RTree.node 5 RTree.nil RTree.nil (some 0) 1 1)
        (Rng.mk (fun i => i + 1) 0) 2 2) :=
  ⟨by decide, by decide, by decide,
    (claim_C8_set (SetSt.mk (RTree.node 5 RTree.nil RTree.nil (some 0) 1 1)
      ⟨fun i => i + 1, 0⟩ 2 2) 4 (by decide) (by decide)).2.2.1 (by decide)⟩

/-- C9 (intended semantics of RbstSet::count, whose body as written in
src/RbstSet.h line 268 passes the arguments of RbstValuedNode::find in the
wrong order and cannot compile when instantiated; setCount applies find as
its signature and count's documentation require): count always returns 0
or 1, and returns 1 exactly when an element equal to the key is present. -/
theorem claim_C9_count (st : SetSt) (k : Int) (h : bstOk st.root) :
    (setCount st k = 0 ∨ setCount st k = 1) ∧
    (setCount st k = 1 ↔ k ∈ vals st.root) := by
  constructor
  · rw [setCount]
    by_cases hx : (find st.root k none).isSome <;> simp [hx]
  · rw [setCount]
    cases hf : find st.root k none with
    | none =>
      have habs : k ∉ vals st.root := (find_none_iff k st.root h).1 hf
      simp [habs]
    | some u =>
      obtain ⟨hval, hmem⟩ := find_some k st.root u hf
      simp [hval ▸ mem_vals_of_mem_nodes hmem]

/-- C9 witness: count on a concrete one-element set. -/
theorem claim_C9_count_witness :
    bstOk (SetSt.mk (RTree.node 5 RTree.nil RTree.nil (some 0) 1 1)
      (Rng.mk (fun i => i + 1) 0) 2 2).root ∧
    (setCount (SetSt.mk (RTree.node 5 RTree.nil RTree.nil (some 0) 1 1)
        (Rng.mk (fun i => i + 1) 0) 2 2) 5 = 1 ↔
      (5 : Int) ∈ vals (SetSt.mk (RTree.node 5 RTree.nil RTree.nil (some 0) 1 1)
        (Rng.mk (fun i => i + 1) 0) 2 2).root) :=
  ⟨by decide,
    (claim_C9_count (SetSt.mk (RTree.node 5 RTree.nil RTree.nil (some 0) 1 1)
      ⟨fun i => i + 1, 0⟩ 2 2) 5 (by decide)).2⟩

/-- C10: under the size invariant, the descent of RbstNode::at(i) with a
valid rank i only ever enters a present child: when i is below the left
subtree's size the left child exists, when it is above the right child
exists and the shifted rank is valid within it; at(i) therefore returns a
node of the subtree and never dereferences an absent child. -/
theorem claim_C10_at_safe (t : RTree) (i : Nat) (h : sizeOk t)
    (hi : i < osize t) :
    (i < osize (lchild t) → lchild t ≠ RTree.nil) ∧
    (osize (lchild t) < i →
      rchild t ≠ RTree.nil ∧ i - osize (lchild t) - 1 < osize (rchild t)) ∧
    ∃ u, atN t i = some u ∧ u ∈ nodes t := by
  cases t with
  | nil =>
    rw [show osize RTree.nil = 0 from rfl] at hi
    omega
  | node v l r p n s =>
    obtain ⟨hs1, hsl, hsr⟩ := h
    have hol : osize l = count l := osize_eq_count hsl
    have hor : osize r = count r := osize_eq_count hsr
    have hi2 : i < s := hi
    refine ⟨?_, ?_, ?_⟩
    · intro h1
      simp only [lchild] at h1 ⊢
      cases l with
      | nil =>
        rw [show osize RTree.nil = 0 from rfl] at h1
        omega
      | node lv ll lr lp lnn lss => simp
    · intro h2
      simp only [lchild] at h2
      simp only [rchild, lchild]
      constructor
      · cases r with
        | nil =>
          rw [show osize RTree.nil = 0 from rfl] at hs1
          omega
        | node rv rl rr rp rnn rss => simp
      · omega
    · have hic : i < count (RTree.node v l r p n s) := by
        rw [count_node]
        omega
      obtain ⟨q, hq1, hq2, hq3, hq4⟩ :=
        atLoc_sound (RTree.node v l r p n s) [] i ⟨hs1, hsl, hsr⟩ hic
      refine ⟨q.2, ?_, atLoc_mem_nodes _ _ _ _ hq1⟩
      rw [atN_eq_atLoc (RTree.node v l r p n s) [] i, hq1]
      rfl

/-- C10 witness: rank 1 in a concrete two-node tree. -/
theorem claim_C10_at_safe_witness :
    sizeOk (RTree.node 5 (RTree.node 3 RTree.nil RTree.nil (some 1) 2 1)
      RTree.nil none 1 2) ∧
    (1 < osize (RTree.node 5 (RTree.node 3 RTree.nil RTree.nil (some 1) 2 1)
      RTree.nil none 1 2)) ∧
    ∃ u, atN (RTree.node 5 (RTree.node 3 RTree.nil RTree.nil (some 1) 2 1)
      RTree.nil none 1 2) 1 = some u ∧
      u ∈ nodes (RTree.node 5 (RTree.node 3 RTree.nil RTree.nil (some 1) 2 1)
        RTree.nil none 1 2) :=
  ⟨by decide, by decide,
    (claim_C10_at_safe (RTree.node 5
      (RTree.node 3 RTree.nil RTree.nil (some 1) 2 1) RTree.nil none 1 2) 1
      (by decide) (by decide)).2.2⟩

end Rbst
